import Mathlib

set_option maxHeartbeats 2000000
set_option maxRecDepth 10000

/-!
Shallow embedding of the `pathseq` library core (numeric range algebra and the
sequence grammar parser/formatter), translated from the Python sources under
`src/pathseq/`.  Strings are modelled as `List Char`; Python `int` as `Int`;
Python `decimal.Decimal` as an exact scaled integer `Dec` (mantissa and a
non-negative count of fraction digits).  Fallible Python code (exceptions)
is modelled with `Except Err`.
-/

/-! ### Basic character/string helpers -/

/-- The characters of a string literal. -/
def chars (s : String) : List Char := s.data

/-- Decimal digit test, as used by the tokeniser regexes (`\d`, `[0-9]`). -/
def isDigitCh (c : Char) : Bool := '0' ≤ c && c ≤ '9'

def digitVal (c : Char) : Nat := c.toNat - '0'.toNat

def digitCh (n : Nat) : Char := Char.ofNat ('0'.toNat + n)

/-- Decimal digits of a natural number (most significant first), fuelled. -/
def natToCharsAux : Nat → Nat → List Char
  | 0, _ => []
  | fuel + 1, n =>
    if n < 10 then [digitCh n]
    else natToCharsAux fuel (n / 10) ++ [digitCh (n % 10)]

/-- `str(n)` for a natural number. -/
def natToChars (n : Nat) : List Char := natToCharsAux (n + 1) n

/-- `str(i)` for a Python integer. -/
def intToChars (i : Int) : List Char :=
  if i < 0 then '-' :: natToChars i.natAbs else natToChars i.natAbs

/-- Python `str.zfill`: left-pad with zeros to the given width, keeping a
leading minus sign in front of the padding. -/
def zfillChars (s : List Char) (w : Nat) : List Char :=
  match s with
  | '-' :: rest => '-' :: (List.replicate (w - 1 - rest.length) '0' ++ rest)
  | _ => List.replicate (w - s.length) '0' ++ s

/-- Numeric value of a list of decimal digit characters. -/
def natOfDigits (ds : List Char) : Nat :=
  ds.foldl (fun a c => a * 10 + digitVal c) 0

/-- Longest prefix of digit characters together with the rest. -/
def takeDigits : List Char → List Char × List Char
  | [] => ([], [])
  | c :: rest =>
    if isDigitCh c then
      let (d, r) := takeDigits rest
      (c :: d, r)
    else ([], c :: rest)

/-- Concatenation of a list of character lists. -/
def concatAll : List (List Char) → List Char
  | [] => []
  | x :: xs => x ++ concatAll xs

/-! ### Errors

Python exceptions raised by the embedded code.  Positional payloads (column
spans, messages) are elided; only the exception class matters to the
properties below.  `NotASequenceError` subclasses `ParseError` in the source
but is kept as a distinct constructor so the two can be told apart. -/

deriving instance DecidableEq for Except

inductive Err where
  /-- `NotASequenceError`: no range token is present in the string. -/
  | notASequence : Err
  /-- `ParseError`: a positioned grammar error. -/
  | parseError : Err
  /-- `statemachine.TransitionNotAllowed`: no eligible transition. -/
  | transitionNotAllowed : Err
  /-- `TypeError` (for example the arity check in `splice_numbers_onto_ranges`,
  or mixing `Decimal` with unsupported operand types). -/
  | typeError : Err
  /-- `NotImplementedError` (UVTILE formatting in `_ast/_base.py`). -/
  | notImplemented : Err
  /-- A failing `assert` statement. -/
  | assertionError : Err
  /-- `ValueError` (for example `range()` with a zero step, or
  `DecimalRange()` with a non-normal step). -/
  | valueError : Err
  /-- `ZeroDivisionError` (for example `divmod(x, 0)`). -/
  | zeroDivision : Err
  /-- `IndexError`. -/
  | indexError : Err
deriving DecidableEq

/-! ### Exact decimals

`Dec` models `decimal.Decimal` values produced by this library: finite
numbers `m / 10 ^ e` with `e ≥ 0` fraction digits (the library only builds
decimals from literals and exact sums/differences/products of them, so
non-negative exponents never arise; `Decimal` context rounding is never hit
at these magnitudes). -/

structure Dec where
  m : Int
  e : Nat
deriving DecidableEq

/-- The mantissa of `a` rescaled to exponent `e` (requires `a.e ≤ e`). -/
def Dec.val10 (a : Dec) (e : Nat) : Int := a.m * (10 : Int) ^ (e - a.e)

def Dec.add (a b : Dec) : Dec :=
  let e := max a.e b.e
  ⟨a.val10 e + b.val10 e, e⟩

def Dec.sub (a b : Dec) : Dec :=
  let e := max a.e b.e
  ⟨a.val10 e - b.val10 e, e⟩

def Dec.neg (a : Dec) : Dec := ⟨-a.m, a.e⟩

def Dec.mul (a b : Dec) : Dec := ⟨a.m * b.m, a.e + b.e⟩

/-- Value comparison `a < b` (Python `Decimal` comparisons are exact). -/
def Dec.blt (a b : Dec) : Bool :=
  let e := max a.e b.e
  a.val10 e < b.val10 e

/-- Value comparison `a <= b`. -/
def Dec.ble (a b : Dec) : Bool :=
  let e := max a.e b.e
  decide (a.val10 e ≤ b.val10 e)

/-- Value equality `a == b`. -/
def Dec.veq (a b : Dec) : Bool :=
  let e := max a.e b.e
  a.val10 e == b.val10 e

def Dec.isZero (a : Dec) : Bool := a.m == 0

/-- Whether the value is an integer (`d % 1 == 0` / `d == d.to_integral()`). -/
def Dec.isIntegral (a : Dec) : Bool := a.m % (10 : Int) ^ a.e == 0

/-- Python `int(d)`: truncation toward zero. -/
def Dec.toIntTrunc (a : Dec) : Int := Int.tdiv a.m ((10 : Int) ^ a.e)

/-- Strip trailing zero fraction digits (`Decimal.normalize` on a
non-integral value never makes the exponent positive). -/
def Dec.stripZeros : Int → Nat → Dec
  | m, 0 => ⟨m, 0⟩
  | m, e + 1 => if m % 10 == 0 then Dec.stripZeros (m / 10) e else ⟨m, e + 1⟩

/-- `remove_exponent` from `_arithmetic_sequence.py`: quantize an integral
value to exponent 0, otherwise normalize away trailing zeros. -/
def Dec.removeExponent (a : Dec) : Dec :=
  if a.isIntegral then ⟨a.toIntTrunc, 0⟩ else Dec.stripZeros a.m a.e

/-- Python `divmod` on decimals: truncated integer quotient and the
corresponding remainder (the caller must rule out a zero divisor). -/
def Dec.divmodT (a b : Dec) : Int × Dec :=
  let e := max a.e b.e
  let x := a.val10 e
  let y := b.val10 e
  let q := Int.tdiv x y
  (q, ⟨x - q * y, e⟩)

def Dec.ofInt (i : Int) : Dec := ⟨i, 0⟩

/-- `Decimal` rendering (`str`).  Fixed-point notation while the adjusted
exponent is at least `-6`, scientific notation below that, matching
Python's `Decimal.__str__` for non-positive exponents. -/
def Dec.render (a : Dec) : List Char :=
  let digits := natToChars a.m.natAbs
  let sign : List Char := if a.m < 0 then ['-'] else []
  if a.e == 0 then sign ++ digits
  else
    let adjusted : Int := (digits.length : Int) - 1 - (a.e : Int)
    if adjusted < -6 then
      let head := digits.take 1
      let tail := digits.drop 1
      sign ++ head ++ (if tail.isEmpty then [] else '.' :: tail) ++
        'E' :: intToChars adjusted
    else
      let padded := List.replicate (a.e + 1 - digits.length) '0' ++ digits
      let ip := padded.take (padded.length - a.e)
      let fp := padded.drop (padded.length - a.e)
      sign ++ ip ++ '.' :: fp

/-- Parse a decimal literal (`-?digits(.digits)?`), as `Decimal(arg)` does
for the literals accepted by the range-string grammar. -/
def Dec.ofChars (s : List Char) : Dec :=
  let (neg, s1) := match s with
    | '-' :: rest => (true, rest)
    | _ => (false, s)
  let (ip, r1) := takeDigits s1
  let fp := match r1 with
    | '.' :: rest => (takeDigits rest).1
    | _ => []
  let mAbs : Int := (natOfDigits (ip ++ fp) : Int)
  ⟨if neg then -mAbs else mAbs, fp.length⟩

/-! ### File numbers

`FileNumT` ranges over `int` and `decimal.Decimal`.  Mixed-type arithmetic
follows Python: an `int` operand is coerced to `Decimal` when the other
operand is a `Decimal`. -/

inductive FileNum where
  | int : Int → FileNum
  | dec : Dec → FileNum
deriving DecidableEq

def FileNum.ofNat (n : Nat) : FileNum := .int n

/-- `start.__class__(1)`. -/
def FileNum.oneOf : FileNum → FileNum
  | .int _ => .int 1
  | .dec _ => .dec ⟨1, 0⟩

def FileNum.add : FileNum → FileNum → FileNum
  | .int a, .int b => .int (a + b)
  | .int a, .dec b => .dec ((Dec.ofInt a).add b)
  | .dec a, .int b => .dec (a.add (Dec.ofInt b))
  | .dec a, .dec b => .dec (a.add b)

def FileNum.sub : FileNum → FileNum → FileNum
  | .int a, .int b => .int (a - b)
  | .int a, .dec b => .dec ((Dec.ofInt a).sub b)
  | .dec a, .int b => .dec (a.sub (Dec.ofInt b))
  | .dec a, .dec b => .dec (a.sub b)

def FileNum.mul : FileNum → FileNum → FileNum
  | .int a, .int b => .int (a * b)
  | .int a, .dec b => .dec ((Dec.ofInt a).mul b)
  | .dec a, .int b => .dec (a.mul (Dec.ofInt b))
  | .dec a, .dec b => .dec (a.mul b)

def FileNum.neg : FileNum → FileNum
  | .int a => .int (-a)
  | .dec a => .dec a.neg

/-- Python `<` across `int`/`Decimal`. -/
def FileNum.blt : FileNum → FileNum → Bool
  | .int a, .int b => a < b
  | .int a, .dec b => (Dec.ofInt a).blt b
  | .dec a, .int b => a.blt (Dec.ofInt b)
  | .dec a, .dec b => a.blt b

def FileNum.ble : FileNum → FileNum → Bool
  | .int a, .int b => decide (a ≤ b)
  | .int a, .dec b => (Dec.ofInt a).ble b
  | .dec a, .int b => a.ble (Dec.ofInt b)
  | .dec a, .dec b => a.ble b

/-- Python `==` across `int`/`Decimal` (value equality). -/
def FileNum.veq : FileNum → FileNum → Bool
  | .int a, .int b => a == b
  | .int a, .dec b => (Dec.ofInt a).veq b
  | .dec a, .int b => a.veq (Dec.ofInt b)
  | .dec a, .dec b => a.veq b

def FileNum.isZero : FileNum → Bool
  | .int a => a == 0
  | .dec a => a.isZero

/-- `isinstance(self.start, other.start.__class__)` for the two possible
numeric classes. -/
def FileNum.sameClass : FileNum → FileNum → Bool
  | .int _, .int _ => true
  | .dec _, .dec _ => true
  | _, _ => false

/-- `str(x)` for a file number. -/
def FileNum.render : FileNum → List Char
  | .int a => intToChars a
  | .dec a => a.render

/-- `x % 1 == 0`. -/
def FileNum.isIntegral : FileNum → Bool
  | .int _ => true
  | .dec a => a.isIntegral

/-- Python `divmod` (floor divmod on integers, truncated divmod on
decimals); fails on a zero divisor. -/
def FileNum.divmodF : FileNum → FileNum → Except Err (FileNum × FileNum)
  | .int a, .int b =>
    if b == 0 then .error .zeroDivision
    else .ok (.int (Int.fdiv a b), .int (Int.fmod a b))
  | a, b =>
    let da := match a with | .int i => Dec.ofInt i | .dec d => d
    let db := match b with | .int i => Dec.ofInt i | .dec d => d
    if db.isZero then .error .zeroDivision
    else
      let (q, r) := da.divmodT db
      .ok (.dec (Dec.ofInt q), .dec r)

/-! ### ArithmeticSequence (`_arithmetic_sequence.py`)

The internal `range`/`DecimalRange` is stored as `rep`; `endv` is the
stored `_end`. -/

/-- `DecimalRange` (`_decimal_range.py`): start, exclusive stop, step. -/
structure DecimalRange where
  start : Dec
  stop : Dec
  step : Dec
deriving DecidableEq

/-- The `DecimalRange` constructor checks: start/stop finite (always true in
this embedding) and the step normal, i.e. non-zero. -/
def DecimalRange.make (start stop step : Dec) : Except Err DecimalRange :=
  if step.isZero then .error .valueError else .ok ⟨start, stop, step⟩

/-- `DecimalRange.__len__` for a positive step.  The source divides
`(stop - start) / step` exactly (via `as_integer_ratio`); with mantissas
aligned to a common exponent this is the integer ratio `x / y`. -/
def DecimalRange.length (r : DecimalRange) : Nat :=
  let e := max (r.stop.sub r.start).e r.step.e
  let x := (r.stop.sub r.start).val10 e
  let y := r.step.val10 e
  if 0 < y ∧ 0 < x then
    (if y ∣ x then Int.tdiv x y else Int.fdiv (x + y) y).toNat
  else if y < 0 ∧ x < 0 then
    (if y ∣ x then Int.tdiv x y else Int.fdiv (x + y) y).toNat
  else 0

/-- The elements yielded by `DecimalRange.__iter__` (the `while` loop
unrolled `len` times). -/
def DecimalRange.toList (r : DecimalRange) : List Dec :=
  (List.range r.length).map fun i => r.start.add (Dec.mul ⟨(i : Int), 0⟩ r.step)

/-- The internal range of an `ArithmeticSequence`: a native `range` for the
integer domain, a `DecimalRange` for the decimal domain. -/
inductive RangeRep where
  | intRange : Int → Int → Int → RangeRep
  | decRange : DecimalRange → RangeRep
deriving DecidableEq

/-- `len(range(a, stop, s))` for a positive step `s`. -/
def RangeRep.length : RangeRep → Nat
  | .intRange a stop s => (Int.fdiv (stop - a + s - 1) s).toNat
  | .decRange r => r.length

def RangeRep.start : RangeRep → FileNum
  | .intRange a _ _ => .int a
  | .decRange r => .dec r.start

def RangeRep.step : RangeRep → FileNum
  | .intRange _ _ s => .int s
  | .decRange r => .dec r.step

def RangeRep.toList : RangeRep → List FileNum
  | .intRange a stop s =>
    (List.range (RangeRep.length (.intRange a stop s))).map fun i =>
      FileNum.int (a + i * s)
  | .decRange r => r.toList.map FileNum.dec

structure ArithmeticSequence where
  rep : RangeRep
  endv : FileNum
deriving DecidableEq

/-- `ArithmeticSequence.__init__`: default the end to the start and the step
to `start.__class__(1)`, normalise to a positive step, then derive the
internal exclusive `stop` and the stored inclusive `_end`. -/
def ArithmeticSequence.make (start0 : FileNum) (end0 : Option FileNum := none)
    (step0 : Option FileNum := none) : Except Err ArithmeticSequence := do
  let e0 := end0.getD start0
  let s0 := step0.getD (FileNum.oneOf start0)
  let (start1, end1, step1) :=
    if s0.blt (.int 0) then (e0, start0, s0.neg) else (start0, e0, s0)
  let (stop1, end2) ←
    if start1.blt end1 then do
      let (_, remainder) ← FileNum.divmodF (end1.sub start1) step1
      if !remainder.isZero then
        pure (end1.add remainder, end1.sub remainder)
      else
        pure (end1.add step1, end1)
    else if start1.veq end1 then
      pure (end1.add step1, end1)
    else
      pure (end1, end1)
  match start1 with
  | .int a =>
    match stop1, step1 with
    | .int b, .int s =>
      if s == 0 then .error .valueError
      else .ok ⟨.intRange a b s, end2⟩
    | _, _ => .error .typeError
  | .dec d =>
    match stop1, step1 with
    | .dec b, .dec s => do
      let dr ← DecimalRange.make d.removeExponent b.removeExponent s.removeExponent
      let e2 ← match end2 with
        | .dec x => pure (FileNum.dec x.removeExponent)
        | .int _ => .error .typeError
      .ok ⟨.decRange dr, e2⟩
    | _, _ => .error .typeError

def ArithmeticSequence.start (r : ArithmeticSequence) : FileNum := r.rep.start

def ArithmeticSequence.step (r : ArithmeticSequence) : FileNum := r.rep.step

def ArithmeticSequence.length (r : ArithmeticSequence) : Nat := r.rep.length

def ArithmeticSequence.toList (r : ArithmeticSequence) : List FileNum := r.rep.toList

/-- `ArithmeticSequence.__eq__`: same numeric class and equal start, end and
step. -/
def ArithmeticSequence.beq (a b : ArithmeticSequence) : Bool :=
  a.start.sameClass b.start && a.start.veq b.start && a.endv.veq b.endv
    && a.step.veq b.step

/-- `ArithmeticSequence.__str__`. -/
def ArithmeticSequence.render (r : ArithmeticSequence) : List Char :=
  if r.length == 1 then r.start.render
  else
    let base := r.start.render ++ '-' :: r.endv.render
    if !(r.step.veq (.int 1)) then base ++ 'x' :: r.step.render
    else if r.length == 2 then
      match r.toList with
      | [x, y] => x.render ++ ',' :: y.render
      | _ => base
    else base

/-- `ArithmeticSequence.__getitem__` with an integer index. -/
def ArithmeticSequence.getAt (r : ArithmeticSequence) (index : Int) :
    Except Err FileNum :=
  if index > (r.length : Int) then .error .indexError
  else .ok (r.rep.start.add ((FileNum.int index).mul r.rep.step))

/-- `ArithmeticSequence._quick_isdisjoint` (also `isdisjoint` for a pair of
arithmetic sequences).  The decimal fallback mirrors the source, including
`10 ** max(exponents)` becoming a Python float (hence a `TypeError` from
`Decimal * float`) whenever that maximum is negative. -/
def ArithmeticSequence.isdisjoint (a b : ArithmeticSequence) :
    Except Err Bool := do
  let a1 := a.start
  let b1 := b.start
  let d1 := a.step
  let d2 := b.step
  let difference := b1.sub a1
  let d1Int : Option Int := match d1 with
    | .int i => some i
    | .dec d => if d.isIntegral then some d.toIntTrunc else none
  let d2Int : Option Int := match d2 with
    | .int i => some i
    | .dec d => if d.isIntegral then some d.toIntTrunc else none
  match d1Int, d2Int with
  | some x, some y =>
    let g : Nat := Int.gcd x y
    if g == 0 then return false
    let rem : FileNum := match difference with
      | .int i => .int (i % (g : Int))
      | .dec d => .dec (d.divmodT (Dec.ofInt g)).2
    if !rem.isZero then return false
    return false
  | _, _ =>
    match d1, d2 with
    | .dec dd1, .dec dd2 =>
      let aExp : Int := -(dd1.removeExponent.e : Int)
      let bExp : Int := -(dd2.removeExponent.e : Int)
      let scaleExp := max aExp bExp
      if scaleExp < 0 then .error .typeError
      else do
        let scale : Int := (10 : Int) ^ scaleExp.toNat
        let d1s := (dd1.mul (Dec.ofInt scale)).toIntTrunc
        let d2s := (dd2.mul (Dec.ofInt scale)).toIntTrunc
        let diffD : Dec := match difference with
          | .dec d => d
          | .int i => Dec.ofInt i
        let diffS := (diffD.mul (Dec.ofInt scale)).toIntTrunc
        let gS : Nat := Int.gcd d1s d2s
        if gS == 0 then return false
        if diffS % (gS : Int) != 0 then return false
        let a1D : Dec := match a1 with
          | .dec d => d
          | .int i => Dec.ofInt i
        let ctScaled := (a1D.mul (Dec.ofInt scale)).add
          (Dec.ofInt (Int.fdiv diffS (gS : Int) * d1s))
        let commonTerm : Dec := ⟨ctScaled.m, ctScaled.e + scaleExp.toNat⟩
        if (FileNum.dec commonTerm).ble a.endv
            && (FileNum.dec commonTerm).ble b.endv then
          return true
        return false
    | _, _ => .error .assertionError

/-! ### Range-string parsing (`_parse_file_num_seq.py`)

The lark grammar:
```
ranges: range ("," range)*
range: FILE_NUM ["-" FILE_NUM ["x" NUM]]
FILE_NUM: "-"? NUM
NUM: (0|[1-9][0-9]*)(\.0|\.[0-9]*[1-9])?
```
Terminals are matched by Python `re` at the current position, so the
alternation in the fraction part prefers a literal `.0`; otherwise the
greedy `\.[0-9]*[1-9]` keeps the longest digit run ending in a non-zero
digit.  The LALR parser does not backtrack: once a `-` or `x` is consumed
the following number is required. -/

/-- Drop trailing `'0'` characters. -/
def dropTrailingZeros (l : List Char) : List Char :=
  (l.reverse.dropWhile (· == '0')).reverse

/-- Match the `NUM` terminal at the head of the input; returns the matched
characters and the rest. -/
def lexNUM (s : List Char) : Option (List Char × List Char) :=
  let ipr : Option (List Char × List Char) :=
    match s with
    | '0' :: rest => some (['0'], rest)
    | c :: _ =>
      if isDigitCh c && c != '0' then some (takeDigits s) else none
    | [] => none
  match ipr with
  | none => none
  | some (ip, r1) =>
    match r1 with
    | '.' :: ds =>
      match ds with
      | '0' :: rest2 => some (ip ++ ['.', '0'], rest2)
      | c :: _ =>
        if isDigitCh c then
          let run := (takeDigits ds).1
          let kept := dropTrailingZeros run
          some (ip ++ '.' :: kept, ds.drop kept.length)
        else some (ip, r1)
      | [] => some (ip, r1)
    | _ => some (ip, r1)

/-- Match the `FILE_NUM` terminal (`"-"? NUM`). -/
def lexFILE_NUM (s : List Char) : Option (List Char × List Char) :=
  match s with
  | '-' :: rest =>
    match lexNUM rest with
    | some (n, r) => some ('-' :: n, r)
    | none => none
  | _ => lexNUM s

/-- The raw string arguments of one `range` production
(start, optional end, optional step). -/
def RangeArgs : Type := List Char × Option (List Char) × Option (List Char)

instance : DecidableEq RangeArgs := by
  unfold RangeArgs
  infer_instance

/-- Parse one `range` production. -/
def parseRangeSpec (s : List Char) : Except Err (RangeArgs × List Char) :=
  match lexFILE_NUM s with
  | none => .error .parseError
  | some (n1, r1) =>
    match r1 with
    | '-' :: r2 =>
      match lexFILE_NUM r2 with
      | none => .error .parseError
      | some (n2, r3) =>
        match r3 with
        | 'x' :: r4 =>
          match lexNUM r4 with
          | none => .error .parseError
          | some (n3, r5) => .ok ((n1, some n2, some n3), r5)
        | _ => .ok ((n1, some n2, none), r3)
    | _ => .ok ((n1, none, none), r1)

/-- Parse the trailing `("," range)*` part, fuelled by the input length. -/
def parseRangesRest : Nat → List RangeArgs → List Char →
    Except Err (List RangeArgs)
  | _, acc, [] => .ok acc.reverse
  | 0, _, _ => .error .parseError
  | fuel + 1, acc, ',' :: r =>
    match parseRangeSpec r with
    | .error e => .error e
    | .ok (args, rest) => parseRangesRest fuel (args :: acc) rest
  | _, _, _ => .error .parseError

/-- Parse a full `ranges` string into raw argument triples. -/
def parseRangesStr (s : List Char) : Except Err (List RangeArgs) :=
  match parseRangeSpec s with
  | .error e => .error e
  | .ok (args, rest) => parseRangesRest (rest.length + 1) [args] rest

/-- `int(arg)` on a `-?digits` literal. -/
def intOfChars (s : List Char) : Int :=
  match s with
  | '-' :: ds => -(natOfDigits ds : Int)
  | ds => (natOfDigits ds : Int)

/-- `_RangeReducer.ranges`: if any argument of any range contains a dot,
every range is built from `Decimal` arguments, otherwise from `int`
arguments. -/
def reduceRanges (rs : List RangeArgs) : Except Err (List ArithmeticSequence) :=
  let hasDot := rs.any fun (a, b, c) =>
    a.contains '.' || (b.getD []).contains '.' || (c.getD []).contains '.'
  let conv : List Char → FileNum :=
    if hasDot then fun x => .dec (Dec.ofChars x) else fun x => .int (intOfChars x)
  rs.mapM fun (a, b, c) =>
    ArithmeticSequence.make (conv a) (b.map conv) (c.map conv)

/-- `parse_file_num_seq`: the empty string yields no ranges; otherwise parse
and reduce, turning any lark `UnexpectedInput` into a `ParseError`. -/
def parseFileNumSeq (s : List Char) : Except Err (List ArithmeticSequence) :=
  if s.isEmpty then .ok []
  else
    match parseRangesStr s with
    | .error _ => .error .parseError
    | .ok rs => reduceRanges rs

/-! ### FileNumSequence (`_file_num_seq.py`) -/

/-- `_seqs_from_nums`: group raw numbers into stepped runs.  The state is
`(start, previous, step?)`; finished runs are collected as triples and
turned into sequences at the end. -/
def seqsFromNumsGo (start previous : FileNum) (step : Option FileNum)
    (acc : List (FileNum × FileNum × FileNum)) :
    List FileNum → List (FileNum × FileNum × FileNum)
  | [] =>
    match step with
    | some st => (acc ++ [(start, previous, st)])
    | none => acc
  | current :: rest =>
    if current.veq previous then
      seqsFromNumsGo start previous step acc rest
    else
      let currentStep := current.sub previous
      let step1 := step.getD currentStep
      if currentStep.veq (.int 1) then
        seqsFromNumsGo start current (some step1) acc rest
      else if step1.veq currentStep then
        seqsFromNumsGo start current (some step1) acc rest
      else
        seqsFromNumsGo current current none
          (acc ++ [(start, previous, step1)]) rest

def seqsFromNums (numbers : List FileNum) :
    Except Err (List ArithmeticSequence) :=
  match numbers with
  | [] => .ok []
  | start :: rest =>
    (seqsFromNumsGo start start none [] rest).mapM fun (a, b, c) =>
      ArithmeticSequence.make a (some b) (some c)

/-- `_consolidate_ranges`: forward single-pass greedy merge of non-empty
neighbouring ranges. -/
def consolidateGo (acc : List ArithmeticSequence) (cur : ArithmeticSequence) :
    List ArithmeticSequence → Except Err (List ArithmeticSequence)
  | [] => .ok (acc ++ [cur])
  | b :: rest => do
    let difference := b.start.sub cur.endv
    if difference.veq cur.step then
      if cur.step.veq b.step then
        let merged ← ArithmeticSequence.make cur.start (some b.endv)
          (some cur.step)
        consolidateGo acc merged rest
      else do
        let left ← ArithmeticSequence.make cur.start (some b.start)
          (some cur.step)
        let right ← ArithmeticSequence.make (b.start.add b.step) (some b.endv)
          (some b.step)
        if right.length == 0 then
          consolidateGo acc left rest
        else
          consolidateGo (acc ++ [left]) right rest
    else if cur.length == 1 && b.length == 1 then do
      let merged ← ArithmeticSequence.make cur.start (some b.start)
        (some difference)
      consolidateGo acc merged rest
    else
      consolidateGo (acc ++ [cur]) b rest

def consolidateRanges (l : List ArithmeticSequence) :
    Except Err (List ArithmeticSequence) :=
  match l.filter (fun r => r.length != 0) with
  | [] => .ok []
  | a :: rest => consolidateGo [] a rest

/-- An ordered collection of consolidated ranges
(`FileNumSequence._ranges`). -/
structure FileNumSequence where
  ranges : List ArithmeticSequence
deriving DecidableEq

/-- The `FileNumSequence` constructor (consolidates its input). -/
def FileNumSequence.ofRanges (l : List ArithmeticSequence) :
    Except Err FileNumSequence :=
  (consolidateRanges l).map FileNumSequence.mk

/-- `FileNumSequence.from_str`. -/
def FileNumSequence.fromStr (s : List Char) : Except Err FileNumSequence := do
  FileNumSequence.ofRanges (← parseFileNumSeq s)

/-- `FileNumSequence.from_file_nums`. -/
def FileNumSequence.fromFileNums (nums : List FileNum) :
    Except Err FileNumSequence := do
  FileNumSequence.ofRanges (← seqsFromNums nums)

/-- `FileNumSequence.__eq__`: equal consolidated range tuples
(element-wise `ArithmeticSequence.__eq__`). -/
def FileNumSequence.beq (a b : FileNumSequence) : Bool :=
  a.ranges.length == b.ranges.length
    && (a.ranges.zip b.ranges).all fun (x, y) => x.beq y

def FileNumSequence.length (f : FileNumSequence) : Nat :=
  (f.ranges.map ArithmeticSequence.length).sum

def FileNumSequence.toList (f : FileNumSequence) : List FileNum :=
  (f.ranges.map ArithmeticSequence.toList).flatten

/-- `FileNumSequence.__str__`: comma-joined range strings. -/
def FileNumSequence.render (f : FileNumSequence) : List Char :=
  match f.ranges.map ArithmeticSequence.render with
  | [] => []
  | x :: xs => x ++ (xs.map (',' :: ·)).flatten

/-- `FileNumSequence.has_subsamples`: whether the first file number is a
`Decimal` (False on an empty collection). -/
def FileNumSequence.hasSubsamples (f : FileNumSequence) : Bool :=
  if f.length == 0 then false
  else
    match f.toList with
    | .dec _ :: _ => true
    | _ => false

/-! ### Padding and formatting helpers (`_ast/_util.py`, `_ast/_base.py`) -/

/-- Round-half-even quantization of a decimal to `p` fraction digits
(`quantize` with `ROUND_HALF_EVEN`). -/
def Dec.quantizeHalfEven (d : Dec) (p : Nat) : Dec :=
  if d.e ≤ p then ⟨d.m * (10 : Int) ^ (p - d.e), p⟩
  else
    let denom : Int := (10 : Int) ^ (d.e - p)
    let q := Int.fdiv d.m denom
    let rem := d.m - q * denom
    let q2 :=
      if 2 * rem < denom then q
      else if 2 * rem > denom then q + 1
      else if q % 2 == 0 then q else q + 1
    ⟨q2, p⟩

/-- Python `round` on a file number (banker's rounding to an integer). -/
def FileNum.roundHalfEven : FileNum → Int
  | .int i => i
  | .dec d => (d.quantizeHalfEven 0).m

/-- `pad_format.split(".", 1)`. -/
def splitFirstDot (l : List Char) : List Char × List Char :=
  let pre := l.takeWhile (· ≠ '.')
  (pre, l.drop (pre.length + 1))

/-- `str(number).split(".", 1)` with the integral part zero-filled. -/
def zfillSplit (r : List Char) (width : Nat) : List Char :=
  if r.contains '.' then
    let (ip, rest) := splitFirstDot r
    zfillChars ip width ++ '.' :: rest
  else zfillChars r width

/-- `pad` from `_ast/_util.py` / `_ast/_base.py`: zero-pad the integral part
to `width` digits, quantizing to `decimalPlaces` fraction digits first when
given. -/
def padNumber (number : FileNum) (width : Nat)
    (decimalPlaces : Option Nat := none) : List Char :=
  if decimalPlaces == some 0 then
    zfillChars (intToChars number.roundHalfEven) width
  else
    match decimalPlaces with
    | some p =>
      let d := match number with
        | .int i => Dec.ofInt i
        | .dec d => d
      zfillSplit (Dec.render (d.quantizeHalfEven p)) width
    | none => zfillSplit number.render width

/-- A pad format paired with a range collection (`PaddedRange`; the same
fields appear in `_ast/_base.py` and `_ast/_ranges.py`). -/
structure PaddedRange where
  fileNums : FileNumSequence
  padFormat : List Char
deriving DecidableEq

/-- `PaddedRange.__str__`: the range string followed by the pad format. -/
def PaddedRange.render (pr : PaddedRange) : List Char :=
  pr.fileNums.render ++ pr.padFormat

/-- `PaddedRange.has_subsamples` delegates to the file number sequence. -/
def PaddedRange.hasSubsamples (pr : PaddedRange) : Bool :=
  pr.fileNums.hasSubsamples

/-- `PaddedRange.format` from `_ast/_ranges.py`: the `<UVTILE>` branch maps
the number to a `u{u+1}_v{v+1}` tile (with `u = (number - 1) % 10` and
`v = (number - 1000 - u - 1) // 10`, floor operations for the positive
modulus 10); `<UDIM>` is a four-digit run; a `head.tail` run pads and
quantizes. -/
def PaddedRange.format (pr : PaddedRange) (number : FileNum) : List Char :=
  if pr.padFormat == chars "<UVTILE>" then
    match number with
    | .int n =>
      let u := (n - 1) % 10
      let v := (n - 1000 - u - 1) / 10
      'u' :: intToChars (u + 1) ++ '_' :: 'v' :: intToChars (v + 1)
    | .dec d =>
      -- Decimal `%` keeps the dividend's sign and `//` truncates; the
      -- library only formats integers with `<UVTILE>`.
      let u := (d.sub (Dec.ofInt 1)).divmodT (Dec.ofInt 10) |>.2
      let v := Int.tdiv ((d.sub (Dec.ofInt 1000)).sub (u.add (Dec.ofInt 1))).toIntTrunc 10
      'u' :: Dec.render (u.add (Dec.ofInt 1)) ++ '_' :: 'v' :: intToChars (v + 1)
  else
    let padFmt := if pr.padFormat == chars "<UDIM>" then chars "####"
      else pr.padFormat
    if padFmt.contains '.' then
      let (head, tail) := splitFirstDot padFmt
      padNumber number head.length (some tail.length)
    else padNumber number padFmt.length none

/-- `PaddedRange.format` from `_ast/_base.py`: like the `_ast/_ranges.py`
version but `<UVTILE>` raises `NotImplementedError`. -/
def PaddedRange.formatBase (pr : PaddedRange) (number : FileNum) :
    Except Err (List Char) :=
  if pr.padFormat == chars "<UVTILE>" then .error .notImplemented
  else .ok (pr.format number)

/-- `PaddedRange.as_regex` from `_ast/_base.py`. -/
def PaddedRange.asRegex (pr : PaddedRange) : List Char :=
  if pr.padFormat == chars "<UVTILE>" then chars "u\\d+_v\\d+"
  else
    let padFmt := if pr.padFormat == chars "<UDIM>" then chars "####"
      else pr.padFormat
    let (head, tailRe) :=
      if padFmt.contains '.' then
        let (h, t) := splitFirstDot padFmt
        (h, chars "\\.[0-9]*" ++ (List.replicate t.length (chars "[0-9]")).flatten)
      else
        (padFmt,
          if pr.hasSubsamples then chars "(\\.[0-9]+)?" else [])
    let positive := chars "([1-9][0-9]*)?" ++
      (List.replicate head.length (chars "[0-9]")).flatten
    let negative := chars "-([1-9][0-9]*)?" ++
      (List.replicate (head.length - 1) (chars "[0-9]")).flatten
    '(' :: positive ++ '|' :: negative ++ ')' :: tailRe

/-! ### Splicing and the strict AST (`_ast/_base.py`, `_ast/_type.py`) -/

/-- `splice_strings_onto_ranges`: interleave range strings with inter-range
strings (`zip_longest` with an empty fill); asserts there is exactly one
more string than inter-range separators. -/
def spliceStringsOntoRanges (strings : List (List Char))
    (interRanges : List (List Char)) : Except Err (List Char) :=
  if strings.length != interRanges.length + 1 then .error .assertionError
  else .ok (((strings.zip (interRanges ++ [[]])).map fun (r, i) => r ++ i).flatten)

/-- `splice_numbers_onto_ranges`: check the arity first (`TypeError` on a
mismatch), then format each number with its range — a `None` keeps the
range's literal string form. -/
def spliceNumbersOntoRanges (numbers : List (Option FileNum))
    (ranges : List PaddedRange) (interRanges : List (List Char)) :
    Except Err (List Char) := do
  if numbers.length != ranges.length then .error .typeError
  else if interRanges.length != ranges.length - 1 then .error .assertionError
  else do
    let toSplice ← (numbers.zip ranges).mapM fun (n, r) =>
      match n with
      | none => .ok r.render
      | some num => r.formatBase num
    spliceStringsOntoRanges toSplice interRanges

/-- The strict-dialect AST (`_ast/_type.py`'s `ParsedSequence`); the
`prefix` field is called `prefixSep` here. -/
structure ParsedSequence where
  stem : List Char
  prefixSep : List Char
  ranges : List PaddedRange
  interRanges : List (List Char)
  suffixes : List (List Char)
deriving DecidableEq

/-- `ParsedSequence.format`. -/
def ParsedSequence.format (ast : ParsedSequence)
    (numbers : List (Option FileNum)) : Except Err (List Char) := do
  let spliced ← spliceNumbersOntoRanges numbers ast.ranges ast.interRanges
  .ok (ast.stem ++ ast.prefixSep ++ spliced ++ concatAll ast.suffixes)

/-- The interleaving performed by `stringify_parsed_sequence` for the
`ranges` field: range strings zipped with the inter-range strings plus one
extra empty string. -/
def spliceRender (rs : List (List Char)) (ins : List (List Char)) :
    List Char :=
  ((rs.zip (ins ++ [[]])).map fun (r, i) => r ++ i).flatten

/-- `stringify_parsed_sequence` on the strict AST: fields in declaration
order, with ranges and inter-range strings interleaved. -/
def ParsedSequence.render (ast : ParsedSequence) : List Char :=
  ast.stem ++ ast.prefixSep ++
    spliceRender (ast.ranges.map PaddedRange.render) ast.interRanges ++
    concatAll ast.suffixes

/-! ### The composite range-token regex (`RANGES_RE`)

`_parse_path_sequence.py` and `_parse_loose_path_sequence.py` split the raw
string on
```
( (?: RANGE (?:,RANGE)* )? PAD )   with
RANGE = -?\d+(?:\.\d+)?(?:--?\d+(?:\.\d+)?(?:x\d+(?:\.\d+)?)?)?
PAD   = #+(?:\.#+)? | <UDIM> | <UVTILE>
```
Matching this pattern at a fixed position is deterministic: every digit run
is followed by a character that cannot be a digit, so the greedy quantifiers
never have to give characters back, and when a parsed ranges part is not
followed by a pad the position cannot match at all (the position starts with
a digit or `-`, which no pad starts with). -/

/-- `\d+(\.\d+)?` at the head of the input. -/
def matchUNum (s : List Char) : Option (List Char × List Char) :=
  let (ds, r1) := takeDigits s
  if ds.isEmpty then none
  else
    match r1 with
    | '.' :: c :: rest =>
      if isDigitCh c then
        let (ds2, r2) := takeDigits (c :: rest)
        some (ds ++ '.' :: ds2, r2)
      else some (ds, r1)
    | _ => some (ds, r1)

/-- `-?\d+(\.\d+)?` at the head of the input. -/
def matchSNum (s : List Char) : Option (List Char × List Char) :=
  match s with
  | '-' :: rest =>
    match matchUNum rest with
    | some (n, r) => some ('-' :: n, r)
    | none => none
  | _ => matchUNum s

/-- One range spec of `RANGE_RE` at the head of the input. -/
def matchRangeSpec (s : List Char) : Option (List Char × List Char) :=
  match matchSNum s with
  | none => none
  | some (n1, r1) =>
    match r1 with
    | '-' :: r2 =>
      match matchSNum r2 with
      | none => some (n1, r1)
      | some (n2, r3) =>
        match r3 with
        | 'x' :: r4 =>
          match matchUNum r4 with
          | none => some (n1 ++ '-' :: n2, r3)
          | some (n3, r5) => some (n1 ++ '-' :: n2 ++ 'x' :: n3, r5)
        | _ => some (n1 ++ '-' :: n2, r3)
    | _ => some (n1, r1)

/-- The `(,RANGE)*` loop, fuelled by the input length. -/
def matchRangesLoop : Nat → List Char → List Char → List Char × List Char
  | 0, acc, s => (acc, s)
  | fuel + 1, acc, s =>
    match s with
    | ',' :: r2 =>
      match matchRangeSpec r2 with
      | some (rr, rest) => matchRangesLoop fuel (acc ++ ',' :: rr) rest
      | none => (acc, s)
    | _ => (acc, s)

/-- The optional `(RANGE (,RANGE)*)?` part; always succeeds, possibly
consuming nothing. -/
def matchRangesPart (s : List Char) : List Char × List Char :=
  match matchRangeSpec s with
  | none => ([], s)
  | some (r1, rest) => matchRangesLoop rest.length r1 rest

/-- `PAD_FORMAT_RE` at the head of the input:
`#+(\.#+)? | <UDIM> | <UVTILE>`. -/
def matchPad (s : List Char) : Option (List Char × List Char) :=
  match s with
  | '#' :: _ =>
    let run := s.takeWhile (· == '#')
    let r1 := s.drop run.length
    match r1 with
    | '.' :: '#' :: _ =>
      let run2 := (r1.drop 1).takeWhile (· == '#')
      some (run ++ '.' :: run2, (r1.drop 1).drop run2.length)
    | _ => some (run, r1)
  | _ =>
    if (chars "<UDIM>").isPrefixOf s then
      some (chars "<UDIM>", s.drop 6)
    else if (chars "<UVTILE>").isPrefixOf s then
      some (chars "<UVTILE>", s.drop 8)
    else none

/-- A full `RANGES_RE` match at the head of the input. -/
def matchRangesToken (s : List Char) : Option (List Char × List Char) :=
  let (rp, s1) := matchRangesPart s
  match matchPad s1 with
  | some (p, s2) => some (rp ++ p, s2)
  | none => none

/-- Scan for non-overlapping, leftmost `RANGES_RE` matches, producing the
text before the first match and `(match, following text)` pairs — the
structure of `re.split(RANGES_RE, seq)`. -/
def scanSeq : Nat → List Char → List Char × List (List Char × List Char)
  | 0, s => (s, [])
  | _, [] => ([], [])
  | fuel + 1, c :: rest =>
    match matchRangesToken (c :: rest) with
    | some (m, r) =>
      let (t, ps) := scanSeq fuel r
      ([], (m, t) :: ps)
    | none =>
      let (t, ps) := scanSeq fuel rest
      (c :: t, ps)

/-- `re.split(RANGES_RE, seq)` as head text plus match/text pairs. -/
def splitSeq (s : List Char) : List Char × List (List Char × List Char) :=
  scanSeq (s.length + 1) s

/-- `PAD_FORMAT_RE.search`: the leftmost pad-format match inside a string. -/
def padSearch : List Char → Option (List Char)
  | [] => none
  | c :: rest =>
    match matchPad (c :: rest) with
    | some (p, _) => some p
    | none => padSearch rest

/-! ### The strict tokeniser and state machine
(`_parse_path_sequence.py`) -/

inductive STokenType where
  | range | interRange | stem | prefixSep | suffixes
deriving DecidableEq

structure SToken where
  type : STokenType
  value : List Char
deriving DecidableEq

/-- `_PREFIX_SEPARATORS = {".", "_"}` applied to the tail of the leading
text: split off a one-character prefix separator unless the text is exactly
`"."`. -/
def stemTokensStrict (t0 : List Char) : List SToken :=
  if t0 != ['.'] && (t0.getLast? == some '.' || t0.getLast? == some '_') then
    [⟨.stem, t0.dropLast⟩, ⟨.prefixSep, [t0.getLast?.getD '.']⟩]
  else [⟨.stem, t0⟩]

/-- The token classification loop of `process_tokens` over the match/text
pairs (`isLast` marks the final pair, whose text must be the suffixes). -/
def processPairs : List (List Char × List Char) → Except Err (List SToken)
  | [] => .ok []
  | (m, t) :: rest =>
    match rest with
    | [] =>
      if t.head? == some '.' then .ok [⟨.range, m⟩, ⟨.suffixes, t⟩]
      else .error .parseError
    | _ :: _ => do
      if t.isEmpty then .error .parseError
      else if t == ['.'] then .error .parseError
      else do
        let tks ← processPairs rest
        .ok (⟨.range, m⟩ :: ⟨.interRange, t⟩ :: tks)

/-- `process_tokens`: the up-front shape checks followed by the
classification loop and the (unreachable, kept for fidelity) final
no-range-token check. -/
def processTokens (s t0 : List Char) (ps : List (List Char × List Char)) :
    Except Err (List SToken) := do
  if s.getLast? == some '.' then .error .parseError
  else if t0.isEmpty then .error .parseError
  else if (ps.getLast?.map (·.2)).getD [] |>.isEmpty then .error .parseError
  else do
    let body ← processPairs ps
    let tokens := stemTokensStrict t0 ++ body
    if tokens.all (fun tk => tk.type != .range) then .error .notASequence
    else .ok tokens

/-- `_tokenise_seq`: a split with no match raises `NotASequenceError`. -/
def tokeniseSeq (s : List Char) : Except Err (List SToken) :=
  let (t0, ps) := splitSeq s
  match ps with
  | [] => .error .notASequence
  | _ :: _ => processTokens s t0 ps

/-- `_SeqParser._parse_padded_range`: find the pad format anywhere in the
token value, strip its length from the end, and parse the rest as a range
string. -/
def parsePaddedRange (v : List Char) : Except Err PaddedRange := do
  match padSearch v with
  | none => .error .parseError
  | some p => do
    let fns ← FileNumSequence.fromStr (v.take (v.length - p.length))
    .ok ⟨fns, p⟩

/-- `_SeqParser._parse_suffixes`: split on dots, rejecting an empty file
extension. -/
def parseSuffixesStrictGo (buffer : List Char) (acc : List (List Char)) :
    List Char → Except Err (List (List Char))
  | [] => .ok (acc ++ [buffer])
  | c :: rest =>
    if c == '.' then
      if buffer == ['.'] then .error .parseError
      else parseSuffixesStrictGo ['.'] (acc ++ [buffer]) rest
    else parseSuffixesStrictGo (buffer ++ [c]) acc rest

def parseSuffixesStrict (v : List Char) : Except Err (List (List Char)) :=
  match v with
  | [] => .ok []
  | c :: rest => parseSuffixesStrictGo [c] [] rest

inductive SState where
  | init | stemSt | inPrefix | rangeInName | inInterRange | inSuffixes
deriving DecidableEq

structure SAcc where
  stem : List Char := []
  prefixSep : List Char := []
  ranges : List PaddedRange := []
  interRanges : List (List Char) := []
  suffixes : List (List Char) := []
deriving DecidableEq

/-- One `pump` step of the strict `_SeqParser` state machine: transitions
are tried in declaration order; `cond` guards skip silently, `validators`
raise `ParseError`, and a state with no matching transition raises
`TransitionNotAllowed`. -/
def sstep (st : SState) (acc : SAcc) (t : SToken) :
    Except Err (SState × SAcc) :=
  match st, t.type with
  | .init, .stem => .ok (.stemSt, { acc with stem := t.value })
  | .init, _ => .error .parseError
  | .stemSt, .prefixSep => .ok (.inPrefix, { acc with prefixSep := t.value })
  | .stemSt, .range => do
    let pr ← parsePaddedRange t.value
    .ok (.rangeInName, { acc with ranges := acc.ranges ++ [pr] })
  | .stemSt, _ => .error .parseError
  | .inPrefix, .range => do
    let pr ← parsePaddedRange t.value
    .ok (.rangeInName, { acc with ranges := acc.ranges ++ [pr] })
  | .inPrefix, _ => .error .parseError
  | .rangeInName, .interRange =>
    .ok (.inInterRange, { acc with interRanges := acc.interRanges ++ [t.value] })
  | .rangeInName, .suffixes => do
    let sx ← parseSuffixesStrict t.value
    .ok (.inSuffixes, { acc with suffixes := sx })
  | .rangeInName, _ => .error .parseError
  | .inInterRange, .range => do
    let pr ← parsePaddedRange t.value
    .ok (.rangeInName, { acc with ranges := acc.ranges ++ [pr] })
  | .inInterRange, _ => .error .parseError
  | .inSuffixes, _ => .error .transitionNotAllowed

def runStrictGo (st : SState) (acc : SAcc) :
    List SToken → Except Err (SState × SAcc)
  | [] => .ok (st, acc)
  | t :: ts => do
    let (st2, acc2) ← sstep st acc t
    runStrictGo st2 acc2 ts

/-- Pump all tokens and `finalise` (only allowed from `in_suffixes`),
assembling the `ParsedSequence` from the accumulated fields. -/
def runStrict (ts : List SToken) : Except Err ParsedSequence := do
  let (st, acc) ← runStrictGo .init {} ts
  if st == .inSuffixes then
    .ok ⟨acc.stem, acc.prefixSep, acc.ranges, acc.interRanges, acc.suffixes⟩
  else .error .transitionNotAllowed

/-- `parse_path_sequence` (strict dialect). -/
def parsePathSequence (s : List Char) : Except Err ParsedSequence :=
  tokeniseSeq s >>= runStrict

/-! ### The loose tokeniser and state machine
(`_parse_loose_path_sequence.py`) -/

inductive LTokenType where
  | range | interRange | stem | prefixSep | postfixSep | suffixes
deriving DecidableEq

structure LToken where
  type : LTokenType
  value : List Char
deriving DecidableEq

/-- First dot index at or after `start`. -/
def findDotFrom (l : List Char) (start : Nat) : Option Nat :=
  ((l.drop start).findIdx? (· == '.')).map (· + start)

/-- Is the character a loose prefix separator (`{"_", "."}`)? -/
def isPrefixSepCh (c : Char) : Bool := c == '.' || c == '_'

/-- Tokens from the leading text of a loose split (`i == 0`).  When the
string ends with a range the leading text also carries the stem, the
suffixes and a possible prefix separator taken from its tail. -/
def t0TokensLoose (t0 : List Char) (endsWithRange : Bool) : List LToken :=
  if t0.isEmpty then []
  else if !endsWithRange then
    if t0 != ['.'] && (t0.getLast?.map isPrefixSepCh).getD false then
      [⟨.stem, t0.dropLast⟩, ⟨.prefixSep, [t0.getLast?.getD '.']⟩]
    else [⟨.stem, t0⟩]
  else
    let hasSep := (t0.getLast?.map isPrefixSepCh).getD false
    let t1 := if hasSep then t0.dropLast else t0
    let suffixDot := if t1.head? == some '.' then 1 else 0
    let suffixI := (findDotFrom t1 suffixDot).getD t1.length
    ([⟨.stem, t1.take suffixI⟩] : List LToken) ++
      (if (t1.drop suffixI).isEmpty then []
        else [⟨.suffixes, t1.drop suffixI⟩]) ++
      (if hasSep then [(⟨.prefixSep, [t0.getLast?.getD '.']⟩ : LToken)]
        else [])

/-- Tokens from the final text of a loose split
(`i == len(raw_tokens) - 1`). -/
def finalTokensLoose (tk : List Char) (startsWithRange : Bool) :
    List LToken :=
  if tk.head? == some '.' && tk.getLast? != some '.' then
    [⟨.suffixes, tk⟩]
  else if startsWithRange then
    let hasPost := tk.head? == some '_'
    let t1 := if hasPost then tk.drop 1 else tk
    let suffixI :=
      if t1.getLast? == some '.' then t1.length
      else if t1.head? == some '.' then 0
      else (findDotFrom t1 0).getD t1.length
    (if hasPost then [(⟨.postfixSep, [tk.head?.getD '_']⟩ : LToken)]
      else []) ++
      (if (t1.take suffixI).isEmpty then [] else [⟨.stem, t1.take suffixI⟩]) ++
      (if (t1.drop suffixI).isEmpty then []
        else [⟨.suffixes, t1.drop suffixI⟩])
  else
    let suffixI :=
      if tk.getLast? == some '.' then tk.length
      else if tk.head? == some '.' then 0
      else (findDotFrom tk 0).getD tk.length
    (if (tk.take suffixI).isEmpty then ([] : List LToken)
      else [⟨.postfixSep, tk.take suffixI⟩]) ++
      (if (tk.drop suffixI).isEmpty then []
        else [⟨.suffixes, tk.drop suffixI⟩])

/-- Tokens from the match/text pairs: every match is a range token, every
middle text an inter-range token (possibly empty), and the final text — when
it was not popped as an empty trailing piece — goes through
`finalTokensLoose`. -/
def bodyTokensLoose (startsWithRange popped : Bool) :
    List (List Char × List Char) → List LToken
  | [] => []
  | [(m, t)] =>
    ⟨.range, m⟩ :: (if popped then [] else finalTokensLoose t startsWithRange)
  | (m, t) :: rest =>
    ⟨.range, m⟩ :: ⟨.interRange, t⟩ ::
      bodyTokensLoose startsWithRange popped rest

/-- `_tokenise` of the loose parser; raises only `NotASequenceError`, when
no range token was produced. -/
def tokeniseLoose (s : List Char) : Except Err (List LToken) :=
  let (t0, ps) := splitSeq s
  let startsWithRange := t0.isEmpty
  let popped := (ps.getLast?.map (·.2)).getD t0 |>.isEmpty
  let tokens := t0TokensLoose t0 popped ++
    bodyTokensLoose startsWithRange popped ps
  if tokens.all (fun tk => tk.type != .range) then .error .notASequence
  else .ok tokens

/-- `SeqParser._parse_suffixes` (loose): split on dots with no validity
check. -/
def parseSuffixesLooseGo (buffer : List Char) (acc : List (List Char)) :
    List Char → List (List Char)
  | [] => acc ++ [buffer]
  | c :: rest =>
    if c == '.' then parseSuffixesLooseGo ['.'] (acc ++ [buffer]) rest
    else parseSuffixesLooseGo (buffer ++ [c]) acc rest

def parseSuffixesLoose (v : List Char) : List (List Char) :=
  match v with
  | [] => []
  | c :: rest => parseSuffixesLooseGo [c] [] rest

/-- The three loose AST shapes (`_ast/_loose_type.py`), with constructor
argument order matching each dataclass's field order. -/
inductive ParsedLooseSequence where
  | rangesStartName (prefixSep : List Char) (ranges : List PaddedRange)
      (interRanges : List (List Char)) (postfixSep : List Char)
      (stem : List Char) (suffixes : List (List Char))
  | rangesInName (stem : List Char) (prefixSep : List Char)
      (ranges : List PaddedRange) (interRanges : List (List Char))
      (postfixSep : List Char) (suffixes : List (List Char))
  | rangesEndName (stem : List Char) (suffixes : List (List Char))
      (prefixSep : List Char) (ranges : List PaddedRange)
      (interRanges : List (List Char)) (postfixSep : List Char)
deriving DecidableEq

/-- `stringify_parsed_sequence` on a loose AST: dataclass fields in
declaration order, ranges interleaved with the inter-range strings. -/
def ParsedLooseSequence.render : ParsedLooseSequence → List Char
  | .rangesStartName p r i po st sx =>
    p ++ spliceRender (r.map PaddedRange.render) i ++ po ++ st ++ concatAll sx
  | .rangesInName st p r i po sx =>
    st ++ p ++ spliceRender (r.map PaddedRange.render) i ++ po ++ concatAll sx
  | .rangesEndName st sx p r i po =>
    st ++ concatAll sx ++ p ++ spliceRender (r.map PaddedRange.render) i ++ po

inductive RType where
  | startName | inName | endName
deriving DecidableEq

inductive LState where
  | init | rangeStartsName | startsInterRange | startsPostfix | startsStem
  | startsSuffixes | rangeLater | inPrefix | rangeInName | inInterRange
  | inPostfix | inSuffixes | rangeEndsName | endsPrefix | endsRange
  | endsInterRange
deriving DecidableEq

structure LAcc where
  rangeType : Option RType := none
  stem : List Char := []
  prefixSep : List Char := []
  ranges : List PaddedRange := []
  interRanges : List (List Char) := []
  postfixSep : List Char := []
  suffixes : List (List Char) := []
deriving DecidableEq

/-- One `pump` step of the loose `SeqParser` state machine, transitions in
declaration order (`cond` guards skip, `validators` raise `ParseError`, no
eligible transition raises `TransitionNotAllowed`).  A second range token in
`range_starts_name` self-transitions, recording a blank inter-range
separator. -/
def lstep (st : LState) (acc : LAcc) (t : LToken) :
    Except Err (LState × LAcc) :=
  match st, t.type with
  | .init, .range => do
    let pr ← parsePaddedRange t.value
    .ok (.rangeStartsName,
      { acc with
        rangeType := some RType.startName
        ranges := acc.ranges ++ [pr] })
  | .init, .stem => .ok (.rangeLater, { acc with stem := t.value })
  | .init, _ => .error .parseError
  | .rangeStartsName, .interRange =>
    .ok (.startsInterRange,
      { acc with interRanges := acc.interRanges ++ [t.value] })
  | .rangeStartsName, .range => do
    let pr ← parsePaddedRange t.value
    .ok (.rangeStartsName,
      { acc with
        rangeType := some RType.startName
        interRanges := acc.interRanges ++ [[]]
        ranges := acc.ranges ++ [pr] })
  | .rangeStartsName, .suffixes =>
    .ok (.inSuffixes,
      { acc with
        rangeType := some RType.inName
        suffixes := parseSuffixesLoose t.value })
  | .rangeStartsName, .postfixSep =>
    .ok (.startsPostfix, { acc with postfixSep := t.value })
  | .rangeStartsName, .stem => .ok (.startsStem, { acc with stem := t.value })
  | .rangeStartsName, _ => .error .parseError
  | .startsInterRange, .range => do
    let pr ← parsePaddedRange t.value
    .ok (.rangeStartsName,
      { acc with
        rangeType := some RType.startName
        ranges := acc.ranges ++ [pr] })
  | .startsInterRange, _ => .error .parseError
  | .startsPostfix, .stem => .ok (.startsStem, { acc with stem := t.value })
  | .startsPostfix, _ => .error .parseError
  | .startsStem, .suffixes =>
    .ok (.startsSuffixes, { acc with suffixes := parseSuffixesLoose t.value })
  | .startsStem, _ => .error .parseError
  | .startsSuffixes, _ => .error .transitionNotAllowed
  | .rangeLater, .prefixSep =>
    .ok (.inPrefix, { acc with prefixSep := t.value })
  | .rangeLater, .range => do
    let pr ← parsePaddedRange t.value
    .ok (.rangeInName,
      { acc with
        rangeType := some RType.inName
        ranges := acc.ranges ++ [pr] })
  | .rangeLater, .suffixes =>
    .ok (.rangeEndsName,
      { acc with
        rangeType := some RType.endName
        suffixes := parseSuffixesLoose t.value })
  | .rangeLater, _ => .error .parseError
  | .inPrefix, .range => do
    let pr ← parsePaddedRange t.value
    .ok (.rangeInName,
      { acc with
        rangeType := some RType.inName
        ranges := acc.ranges ++ [pr] })
  | .inPrefix, _ => .error .parseError
  | .rangeInName, .interRange =>
    .ok (.inInterRange,
      { acc with interRanges := acc.interRanges ++ [t.value] })
  | .rangeInName, .postfixSep =>
    .ok (.inPostfix, { acc with postfixSep := t.value })
  | .rangeInName, .suffixes =>
    .ok (.inSuffixes, { acc with suffixes := parseSuffixesLoose t.value })
  | .rangeInName, _ => .error .parseError
  | .inInterRange, .range => do
    let pr ← parsePaddedRange t.value
    .ok (.rangeInName,
      { acc with
        rangeType := some RType.inName
        ranges := acc.ranges ++ [pr] })
  | .inInterRange, _ => .error .parseError
  | .inPostfix, .suffixes =>
    .ok (.inSuffixes, { acc with suffixes := parseSuffixesLoose t.value })
  | .inPostfix, _ => .error .parseError
  | .inSuffixes, _ => .error .transitionNotAllowed
  | .rangeEndsName, .prefixSep =>
    .ok (.endsPrefix, { acc with prefixSep := t.value })
  | .rangeEndsName, .range => do
    let pr ← parsePaddedRange t.value
    .ok (.endsRange, { acc with ranges := acc.ranges ++ [pr] })
  | .rangeEndsName, _ => .error .parseError
  | .endsPrefix, .range => do
    let pr ← parsePaddedRange t.value
    .ok (.endsRange, { acc with ranges := acc.ranges ++ [pr] })
  | .endsPrefix, _ => .error .parseError
  | .endsRange, .interRange =>
    .ok (.endsInterRange,
      { acc with interRanges := acc.interRanges ++ [t.value] })
  | .endsRange, _ => .error .parseError
  | .endsInterRange, .range => do
    let pr ← parsePaddedRange t.value
    .ok (.endsRange, { acc with ranges := acc.ranges ++ [pr] })
  | .endsInterRange, _ => .error .parseError

def runLooseGo (st : LState) (acc : LAcc) :
    List LToken → Except Err (LState × LAcc)
  | [] => .ok (st, acc)
  | t :: ts => do
    let (st2, acc2) ← lstep st acc t
    runLooseGo st2 acc2 ts

/-- `finalise` plus `on_finalise`: only certain states may finalise;
finalising straight from `range_starts_name` demotes the result to
`RangesInName`; the range type must be established and the prefix/postfix
emptiness assertions of the chosen shape must hold. -/
def looseFinalise (st : LState) (acc : LAcc) :
    Except Err ParsedLooseSequence := do
  let allowed := [LState.rangeStartsName, .startsStem, .startsSuffixes,
    .rangeInName, .inPostfix, .inSuffixes, .endsRange]
  if !(allowed.contains st) then .error .transitionNotAllowed
  else do
    let rt := if st == .rangeStartsName then some RType.inName
      else acc.rangeType
    match rt with
    | none => .error .assertionError
    | some .startName =>
      if !acc.prefixSep.isEmpty then .error .assertionError
      else .ok (.rangesStartName acc.prefixSep acc.ranges acc.interRanges
        acc.postfixSep acc.stem acc.suffixes)
    | some .inName =>
      .ok (.rangesInName acc.stem acc.prefixSep acc.ranges acc.interRanges
        acc.postfixSep acc.suffixes)
    | some .endName =>
      if !acc.postfixSep.isEmpty then .error .assertionError
      else .ok (.rangesEndName acc.stem acc.suffixes acc.prefixSep
        acc.ranges acc.interRanges acc.postfixSep)

def runLoose (ts : List LToken) : Except Err ParsedLooseSequence := do
  let (st, acc) ← runLooseGo .init {} ts
  looseFinalise st acc

/-- `parse_path_sequence` (loose dialect). -/
def parseLoosePathSequence (s : List Char) : Except Err ParsedLooseSequence :=
  tokeniseLoose s >>= runLoose

/-! ### Auxiliary definitions for the properties below -/

/-- Concatenation of strict token values. -/
def sTokensText (ts : List SToken) : List Char :=
  concatAll (ts.map (·.value))

/-- Concatenation of loose token values. -/
def lTokensText (ts : List LToken) : List Char :=
  concatAll (ts.map (·.value))

/-- A range-token value is canonical when re-rendering its parsed
`PaddedRange` reproduces it verbatim (vacuously true when it does not
parse). -/
def canonicalTok (v : List Char) : Bool :=
  match parsePaddedRange v with
  | .ok pr => pr.render == v
  | .error _ => true

/-- All range tokens of a strict token list are canonical. -/
def canonicalSTokens (ts : List SToken) : Prop :=
  ∀ t ∈ ts, t.type = .range → canonicalTok t.value = true

/-- All range tokens of a loose token list are canonical. -/
def canonicalLTokens (ts : List LToken) : Prop :=
  ∀ t ∈ ts, t.type = .range → canonicalTok t.value = true

/-- The text rendered by the strict machine's consumed tokens, by state. -/
def srender : SState → SAcc → List Char
  | .init, _ => []
  | .stemSt, a => a.stem
  | .inPrefix, a => a.stem ++ a.prefixSep
  | .rangeInName, a =>
    a.stem ++ a.prefixSep ++
      spliceRender (a.ranges.map PaddedRange.render) a.interRanges
  | .inInterRange, a =>
    a.stem ++ a.prefixSep ++
      spliceRender (a.ranges.map PaddedRange.render) a.interRanges
  | .inSuffixes, a =>
    a.stem ++ a.prefixSep ++
      spliceRender (a.ranges.map PaddedRange.render) a.interRanges ++
      concatAll a.suffixes

/-- Structural facts maintained by the strict machine at each state. -/
def SInvStruct : SState → SAcc → Prop
  | .init, a =>
    a.stem = [] ∧ a.prefixSep = [] ∧ a.ranges = [] ∧ a.interRanges = []
  | .stemSt, a => a.prefixSep = [] ∧ a.ranges = [] ∧ a.interRanges = []
  | .inPrefix, a => a.ranges = [] ∧ a.interRanges = []
  | .rangeInName, a => a.interRanges.length + 1 = a.ranges.length
  | .inInterRange, a => a.interRanges.length = a.ranges.length
  | .inSuffixes, _ => True

/-- The text rendered by the loose machine's consumed tokens, by state. -/
def lrender : LState → LAcc → List Char
  | .init, _ => []
  | .rangeLater, a => a.stem
  | .inPrefix, a => a.stem ++ a.prefixSep
  | .rangeInName, a =>
    a.stem ++ a.prefixSep ++
      spliceRender (a.ranges.map PaddedRange.render) a.interRanges
  | .inInterRange, a =>
    a.stem ++ a.prefixSep ++
      spliceRender (a.ranges.map PaddedRange.render) a.interRanges
  | .inPostfix, a =>
    a.stem ++ a.prefixSep ++
      spliceRender (a.ranges.map PaddedRange.render) a.interRanges ++
      a.postfixSep
  | .inSuffixes, a =>
    a.stem ++ a.prefixSep ++
      spliceRender (a.ranges.map PaddedRange.render) a.interRanges ++
      a.postfixSep ++ concatAll a.suffixes
  | .rangeStartsName, a =>
    spliceRender (a.ranges.map PaddedRange.render) a.interRanges
  | .startsInterRange, a =>
    spliceRender (a.ranges.map PaddedRange.render) a.interRanges
  | .startsPostfix, a =>
    spliceRender (a.ranges.map PaddedRange.render) a.interRanges ++
      a.postfixSep
  | .startsStem, a =>
    spliceRender (a.ranges.map PaddedRange.render) a.interRanges ++
      a.postfixSep ++ a.stem
  | .startsSuffixes, a =>
    spliceRender (a.ranges.map PaddedRange.render) a.interRanges ++
      a.postfixSep ++ a.stem ++ concatAll a.suffixes
  | .rangeEndsName, a => a.stem ++ concatAll a.suffixes
  | .endsPrefix, a => a.stem ++ concatAll a.suffixes ++ a.prefixSep
  | .endsRange, a =>
    a.stem ++ concatAll a.suffixes ++ a.prefixSep ++
      spliceRender (a.ranges.map PaddedRange.render) a.interRanges
  | .endsInterRange, a =>
    a.stem ++ concatAll a.suffixes ++ a.prefixSep ++
      spliceRender (a.ranges.map PaddedRange.render) a.interRanges

/-- Structural facts maintained by the loose machine at each state. -/
def LInvStruct : LState → LAcc → Prop
  | .init, a =>
    a.stem = [] ∧ a.prefixSep = [] ∧ a.ranges = [] ∧ a.interRanges = [] ∧
      a.postfixSep = [] ∧ a.suffixes = []
  | .rangeLater, a =>
    a.prefixSep = [] ∧ a.ranges = [] ∧ a.interRanges = [] ∧
      a.postfixSep = [] ∧ a.suffixes = []
  | .inPrefix, a =>
    a.ranges = [] ∧ a.interRanges = [] ∧ a.postfixSep = [] ∧ a.suffixes = []
  | .rangeInName, a =>
    a.interRanges.length + 1 = a.ranges.length ∧ a.postfixSep = [] ∧
      a.suffixes = [] ∧ a.rangeType = some RType.inName
  | .inInterRange, a =>
    a.interRanges.length = a.ranges.length ∧ a.postfixSep = [] ∧
      a.suffixes = [] ∧ a.rangeType = some RType.inName
  | .inPostfix, a => a.suffixes = [] ∧ a.rangeType = some RType.inName
  | .inSuffixes, a => a.rangeType = some RType.inName
  | .rangeStartsName, a =>
    a.stem = [] ∧ a.prefixSep = [] ∧ a.postfixSep = [] ∧ a.suffixes = [] ∧
      a.interRanges.length + 1 = a.ranges.length ∧
      a.rangeType = some RType.startName
  | .startsInterRange, a =>
    a.stem = [] ∧ a.prefixSep = [] ∧ a.postfixSep = [] ∧ a.suffixes = [] ∧
      a.interRanges.length = a.ranges.length ∧
      a.rangeType = some RType.startName
  | .startsPostfix, a =>
    a.stem = [] ∧ a.prefixSep = [] ∧ a.suffixes = [] ∧
      a.rangeType = some RType.startName
  | .startsStem, a =>
    a.prefixSep = [] ∧ a.suffixes = [] ∧ a.rangeType = some RType.startName
  | .startsSuffixes, a =>
    a.prefixSep = [] ∧ a.rangeType = some RType.startName
  | .rangeEndsName, a =>
    a.prefixSep = [] ∧ a.ranges = [] ∧ a.interRanges = [] ∧
      a.postfixSep = [] ∧ a.rangeType = some RType.endName
  | .endsPrefix, a =>
    a.ranges = [] ∧ a.interRanges = [] ∧ a.postfixSep = [] ∧
      a.rangeType = some RType.endName
  | .endsRange, a =>
    a.interRanges.length + 1 = a.ranges.length ∧ a.postfixSep = [] ∧
      a.rangeType = some RType.endName
  | .endsInterRange, a =>
    a.interRanges.length = a.ranges.length ∧ a.postfixSep = [] ∧
      a.rangeType = some RType.endName

/-- A pad format starts at the head of the string (the only positions at
which `PAD_FORMAT_RE` — and hence, with an empty ranges part, `RANGES_RE` —
can match). -/
def padStart (s : List Char) : Bool :=
  s.head? == some '#' || (chars "<UDIM>").isPrefixOf s ||
    (chars "<UVTILE>").isPrefixOf s

/-- The string contains a range token (a `RANGES_RE` match) somewhere. -/
def hasRangeToken (s : List Char) : Bool :=
  (List.range (s.length + 1)).any fun i => (matchRangesToken (s.drop i)).isSome

/-- Loose-parse result shape tests. -/
def ParsedLooseSequence.isStartName : ParsedLooseSequence → Bool
  | .rangesStartName .. => true
  | _ => false

def ParsedLooseSequence.isInName : ParsedLooseSequence → Bool
  | .rangesInName .. => true
  | _ => false

def ParsedLooseSequence.isEndName : ParsedLooseSequence → Bool
  | .rangesEndName .. => true
  | _ => false

def ParsedLooseSequence.rangesOf : ParsedLooseSequence → List PaddedRange
  | .rangesStartName _ r _ _ _ _ => r
  | .rangesInName _ _ r _ _ _ => r
  | .rangesEndName _ _ _ r _ _ => r

/-- An empty range collection. -/
def emptyFNS : FileNumSequence := ⟨[]⟩

/-- A `<UVTILE>` padded range (the collection part is irrelevant to
formatting). -/
def uvtilePR : PaddedRange := ⟨emptyFNS, chars "<UVTILE>"⟩

/-- The `<UVTILE>` rendering claimed by the specification:
`u{u+1}_v{v+1}` with `u = (number-1) mod 10` and `v = (number-1-u) div 10`. -/
def specUVTILE (n : Int) : List Char :=
  let u := (n - 1) % 10
  let v := (n - 1 - u) / 10
  'u' :: intToChars (u + 1) ++ '_' :: 'v' :: intToChars (v + 1)

/-- The regex the specification claims for a `#`-run of width `k`: the
negative alternative is a bare `-` followed by the same fixed digit run,
and the decimal suffix appears only when a non-integral value is present. -/
def specHashRegex (k : Nat) (nonIntegral : Bool) : List Char :=
  '(' :: (chars "([1-9][0-9]*)?" ++ (List.replicate k (chars "[0-9]")).flatten) ++
    '|' :: ('-' :: (List.replicate k (chars "[0-9]")).flatten) ++
    ')' :: (if nonIntegral then chars "(\\.[0-9]+)?" else [])

/-- The regex the code produces for a `#`-run of width `k` (see
`claim7_as_regex`). -/
def codeHashRegex (k : Nat) (subsamples : Bool) : List Char :=
  '(' :: (chars "([1-9][0-9]*)?" ++ (List.replicate k (chars "[0-9]")).flatten) ++
    '|' :: (chars "-([1-9][0-9]*)?" ++ (List.replicate (k - 1) (chars "[0-9]")).flatten) ++
    ')' :: (if subsamples then chars "(\\.[0-9]+)?" else [])

/-- The strict tokens of `"file.1-9x2#.exr"`. -/
def rtTokens : List SToken :=
  [⟨.stem, chars "file"⟩, ⟨.prefixSep, chars "."⟩,
    ⟨.range, chars "1-9x2"  ++ ['#']⟩, ⟨.suffixes, chars ".exr"⟩]

/-- The loose tokens of `"file.1-9x2#.exr"`. -/
def rtTokensL : List LToken :=
  [⟨.stem, chars "file"⟩, ⟨.prefixSep, chars "."⟩,
    ⟨.range, chars "1-9x2" ++ ['#']⟩, ⟨.suffixes, chars ".exr"⟩]

/-- The strict AST of `"file.1-9x2#.exr"`. -/
def rtAst : ParsedSequence :=
  ⟨chars "file", chars ".",
    [⟨⟨[⟨.intRange 1 11 2, .int 9⟩]⟩, ['#']⟩], [], [chars ".exr"]⟩

/-- The loose AST of `"file.1-9x2#.exr"`. -/
def rtAstL : ParsedLooseSequence :=
  .rangesInName (chars "file") (chars ".")
    [⟨⟨[⟨.intRange 1 11 2, .int 9⟩]⟩, ['#']⟩] [] [] [chars ".exr"]

/-- The loose tokens of `"file.exr.1-9x2#"` (a string only the loose
dialect accepts). -/
def rtTokensEnd : List LToken :=
  [⟨.stem, chars "file"⟩, ⟨.suffixes, chars ".exr"⟩, ⟨.prefixSep, chars "."⟩,
    ⟨.range, chars "1-9x2" ++ ['#']⟩]

/-- The loose AST of `"file.exr.1-9x2#"`. -/
def rtAstEnd : ParsedLooseSequence :=
  .rangesEndName (chars "file") [chars ".exr"] (chars ".")
    [⟨⟨[⟨.intRange 1 11 2, .int 9⟩]⟩, ['#']⟩] [] []

/-- A two-range AST (for the arity property). -/
def twoRangeAst : ParsedSequence :=
  ⟨chars "f", chars ".", [⟨emptyFNS, ['#']⟩, ⟨emptyFNS, ['#']⟩],
    [chars "_"], []⟩

/-! ### Properties of the matcher and the scanner -/

theorem takeDigits_append : ∀ s : List Char,
    (takeDigits s).1 ++ (takeDigits s).2 = s
  | [] => rfl
  | c :: rest => by
    simp only [takeDigits]
    by_cases h : isDigitCh c = true
    · rcases hdr : takeDigits rest with ⟨d, r⟩
      have ih := takeDigits_append rest
      rw [hdr] at ih
      simp [h, hdr, ih]
    · simp [h]

theorem matchUNum_append {s m r : List Char} (h : matchUNum s = some (m, r)) :
    m ++ r = s := by
  unfold matchUNum at h
  rcases hds : takeDigits s with ⟨ds, r1⟩
  have hjoin : ds ++ r1 = s := by
    have := takeDigits_append s
    rw [hds] at this
    exact this
  rw [hds] at h
  simp only at h
  split at h
  · exact absurd h (by simp)
  · split at h
    · rename_i c1 rest1
      split at h
      · rcases hd2 : takeDigits (c1 :: rest1) with ⟨ds2, r2⟩
        rw [hd2] at h
        simp only [Option.some.injEq, Prod.mk.injEq] at h
        obtain ⟨rfl, rfl⟩ := h
        have hjoin2 := takeDigits_append (c1 :: rest1)
        rw [hd2] at hjoin2
        rw [← hjoin, ← hjoin2]
        simp
      · simp only [Option.some.injEq, Prod.mk.injEq] at h
        obtain ⟨rfl, rfl⟩ := h
        exact hjoin
    · simp only [Option.some.injEq, Prod.mk.injEq] at h
      obtain ⟨rfl, rfl⟩ := h
      exact hjoin

theorem matchSNum_append {s m r : List Char} (h : matchSNum s = some (m, r)) :
    m ++ r = s := by
  unfold matchSNum at h
  split at h
  · rename_i rest
    split at h
    · rename_i n r2 hun
      simp only [Option.some.injEq, Prod.mk.injEq] at h
      obtain ⟨rfl, rfl⟩ := h
      simp [matchUNum_append hun]
    · exact absurd h (by simp)
  · exact matchUNum_append h

theorem matchRangeSpec_append {s m r : List Char}
    (h : matchRangeSpec s = some (m, r)) : m ++ r = s := by
  unfold matchRangeSpec at h
  split at h
  · exact absurd h (by simp)
  · rename_i n1 r1 h1
    have e1 := matchSNum_append h1
    split at h
    · rename_i r2
      split at h
      · simp only [Option.some.injEq, Prod.mk.injEq] at h
        obtain ⟨rfl, rfl⟩ := h
        exact e1
      · rename_i n2 r3 h2
        have e2 := matchSNum_append h2
        split at h
        · rename_i r4
          split at h
          · simp only [Option.some.injEq, Prod.mk.injEq] at h
            obtain ⟨rfl, rfl⟩ := h
            rw [← e1, ← e2]
            simp
          · rename_i n3 r5 h3
            have e3 := matchUNum_append h3
            simp only [Option.some.injEq, Prod.mk.injEq] at h
            obtain ⟨rfl, rfl⟩ := h
            rw [← e1, ← e2, ← e3]
            simp
        · simp only [Option.some.injEq, Prod.mk.injEq] at h
          obtain ⟨rfl, rfl⟩ := h
          rw [← e1, ← e2]
          simp
    · simp only [Option.some.injEq, Prod.mk.injEq] at h
      obtain ⟨rfl, rfl⟩ := h
      exact e1

theorem matchRangesLoop_append : ∀ (fuel : Nat) (acc s m r : List Char),
    matchRangesLoop fuel acc s = (m, r) → ∃ mid, m = acc ++ mid ∧ mid ++ r = s
  | 0, acc, s, m, r, h => by
    simp only [matchRangesLoop] at h
    obtain ⟨rfl, rfl⟩ := Prod.mk.injEq .. ▸ h
    exact ⟨[], by simp⟩
  | fuel + 1, acc, s, m, r, h => by
    simp only [matchRangesLoop] at h
    split at h
    · rename_i r2
      split at h
      · rename_i rr rest hrr
        obtain ⟨mid, hm, hjoin⟩ :=
          matchRangesLoop_append fuel (acc ++ ',' :: rr) rest m r h
        refine ⟨',' :: rr ++ mid, by simp [hm], ?_⟩
        have := matchRangeSpec_append hrr
        simp only [List.cons_append, List.append_assoc]
        rw [hjoin, this]
      · obtain ⟨rfl, rfl⟩ := Prod.mk.injEq .. ▸ h
        exact ⟨[], by simp⟩
    · obtain ⟨rfl, rfl⟩ := Prod.mk.injEq .. ▸ h
      exact ⟨[], by simp⟩

theorem matchRangesPart_append (s : List Char) :
    (matchRangesPart s).1 ++ (matchRangesPart s).2 = s := by
  unfold matchRangesPart
  split
  · simp
  · rename_i r1 rest h1
    rcases hl : matchRangesLoop rest.length r1 rest with ⟨m, r⟩
    obtain ⟨mid, hm, hjoin⟩ := matchRangesLoop_append _ _ _ _ _ hl
    have := matchRangeSpec_append h1
    simp only [hm, List.append_assoc]
    rw [hjoin, this]

theorem drop_takeWhile_length (p : Char → Bool) : ∀ l : List Char,
    l.drop (l.takeWhile p).length = l.dropWhile p
  | [] => rfl
  | c :: rest => by
    by_cases h : p c
    · simp [List.takeWhile_cons, List.dropWhile_cons, h,
        drop_takeWhile_length p rest]
    · simp [List.takeWhile_cons, List.dropWhile_cons, h]

theorem takeWhile_drop_join (p : Char → Bool) (l : List Char) :
    l.takeWhile p ++ l.drop (l.takeWhile p).length = l := by
  rw [drop_takeWhile_length]
  exact List.takeWhile_append_dropWhile _ _

theorem matchPad_append {s p r : List Char} (h : matchPad s = some (p, r)) :
    p ++ r = s ∧ p ≠ [] := by
  simp only [matchPad] at h
  split at h
  · rename_i rest
    have hjoin := takeWhile_drop_join (· == '#') ('#' :: rest)
    have hrunne : ('#' :: rest).takeWhile (· == '#') ≠ [] := by
      simp [List.takeWhile_cons]
    split at h
    · rename_i c2 rest2 hshape
      simp only [Option.some.injEq, Prod.mk.injEq] at h
      obtain ⟨rfl, rfl⟩ := h
      refine ⟨?_, fun hc => hrunne (List.append_eq_nil.mp hc).1⟩
      have hj2 := takeWhile_drop_join (· == '#')
        ((('#' :: rest).drop (('#' :: rest).takeWhile (· == '#')).length).drop 1)
      rw [hshape] at hj2 ⊢
      simp only [List.drop_one, List.tail_cons] at hj2 ⊢
      conv_rhs => rw [← hjoin, hshape]
      simp only [List.append_assoc, List.cons_append]
      rw [hj2]
    · simp only [Option.some.injEq, Prod.mk.injEq] at h
      obtain ⟨rfl, rfl⟩ := h
      exact ⟨hjoin, hrunne⟩
  · rename_i hns
    split at h
    · rename_i hpre
      simp only [Option.some.injEq, Prod.mk.injEq] at h
      obtain ⟨rfl, rfl⟩ := h
      have hp : chars "<UDIM>" <+: s := by
        simpa [List.isPrefixOf_iff_prefix] using hpre
      obtain ⟨t, ht⟩ := hp
      have h6 : (chars "<UDIM>").length = 6 := rfl
      constructor
      · rw [← ht, ← h6, List.drop_left]
      · simp [chars]
    · split at h
      · rename_i hpre
        simp only [Option.some.injEq, Prod.mk.injEq] at h
        obtain ⟨rfl, rfl⟩ := h
        have hp : chars "<UVTILE>" <+: s := by
          simpa [List.isPrefixOf_iff_prefix] using hpre
        obtain ⟨t, ht⟩ := hp
        have h8 : (chars "<UVTILE>").length = 8 := rfl
        constructor
        · rw [← ht, ← h8, List.drop_left]
        · simp [chars]
      · exact absurd h (by simp)

theorem matchRangesToken_append {s m r : List Char}
    (h : matchRangesToken s = some (m, r)) : m ++ r = s ∧ m ≠ [] := by
  unfold matchRangesToken at h
  rcases hpart : matchRangesPart s with ⟨rp, s1⟩
  have hj := matchRangesPart_append s
  rw [hpart] at h hj
  simp only at h
  split at h
  · rename_i p s2 hpad
    obtain ⟨hpj, hpne⟩ := matchPad_append hpad
    simp only [Option.some.injEq, Prod.mk.injEq] at h
    obtain ⟨rfl, rfl⟩ := h
    constructor
    · rw [List.append_assoc, hpj, hj]
    · intro hc
      exact hpne (List.append_eq_nil.mp hc).2
  · exact absurd h (by simp)

theorem matchRangesToken_length {s m r : List Char}
    (h : matchRangesToken s = some (m, r)) : r.length < s.length := by
  obtain ⟨hj, hne⟩ := matchRangesToken_append h
  have : m.length + r.length = s.length := by
    rw [← hj]; simp
  have : 0 < m.length := List.length_pos.mpr hne
  omega

theorem scanSeq_join : ∀ (fuel : Nat) (s : List Char),
    (scanSeq fuel s).1 ++
      concatAll ((scanSeq fuel s).2.map fun p => p.1 ++ p.2) = s
  | 0, s => by simp [scanSeq, concatAll]
  | fuel + 1, [] => by simp [scanSeq, concatAll]
  | fuel + 1, c :: rest => by
    simp only [scanSeq]
    split
    · rename_i m r hm
      rcases hs : scanSeq fuel r with ⟨t, ps⟩
      have ih := scanSeq_join fuel r
      rw [hs] at ih
      simp only [concatAll, List.map_cons, List.nil_append]
      rw [List.append_assoc, ih]
      exact (matchRangesToken_append hm).1
    · rcases hs : scanSeq fuel rest with ⟨t, ps⟩
      have ih := scanSeq_join fuel rest
      rw [hs] at ih
      simp only [List.cons_append]
      rw [ih]

theorem splitSeq_join (s : List Char) :
    (splitSeq s).1 ++
      concatAll ((splitSeq s).2.map fun p => p.1 ++ p.2) = s :=
  scanSeq_join _ s

/-! ### Which code can raise `NotASequenceError`

Only the two tokenisers construct `NotASequenceError`; everything reachable
from the state machines raises other errors.  These lemmas push that fact
through every `Except` chain. -/

theorem divmodF_ne_nas (a b : FileNum) :
    FileNum.divmodF a b ≠ .error .notASequence := by
  cases a <;> cases b <;> simp only [FileNum.divmodF] <;> split <;> simp

theorem decRangeMake_ne_nas (a b c : Dec) :
    DecimalRange.make a b c ≠ .error .notASequence := by
  simp only [DecimalRange.make]
  split <;> simp

theorem asMake_ne_nas (a : FileNum) (b c : Option FileNum) :
    ArithmeticSequence.make a b c ≠ .error .notASequence := by
  intro h
  unfold ArithmeticSequence.make at h
  simp only [bind, Except.bind, pure, Except.pure] at h
  repeat' split at h
  all_goals (try cases h)
  all_goals simp_all
  all_goals
    first
    | exact divmodF_ne_nas _ _ (by assumption)
    | exact decRangeMake_ne_nas _ _ _ (by assumption)

theorem parseRangeSpec_ne_nas (s : List Char) :
    parseRangeSpec s ≠ .error .notASequence := by
  intro h
  unfold parseRangeSpec at h
  repeat' split at h
  all_goals simp_all

theorem parseRangesRest_ne_nas : ∀ (fuel : Nat) (acc : List RangeArgs)
    (s : List Char), parseRangesRest fuel acc s ≠ .error .notASequence := by
  intro fuel
  induction fuel with
  | zero =>
    intro acc s h
    unfold parseRangesRest at h
    split at h <;> simp_all
  | succ n ih =>
    intro acc s h
    unfold parseRangesRest at h
    repeat' split at h
    all_goals simp_all
    all_goals
      first
      | exact ih _ _ h
      | exact parseRangeSpec_ne_nas _ (by assumption)

theorem parseRangesStr_ne_nas (s : List Char) :
    parseRangesStr s ≠ .error .notASequence := by
  intro h
  unfold parseRangesStr at h
  split at h
  · rename_i e he
    cases h
    exact parseRangeSpec_ne_nas s (by simp_all)
  · exact parseRangesRest_ne_nas _ _ _ h

theorem mapM_ne_nas {α β : Type} (f : α → Except Err β)
    (hf : ∀ x, f x ≠ .error .notASequence) :
    ∀ l : List α, l.mapM f ≠ .error .notASequence := by
  intro l
  induction l with
  | nil =>
    intro h
    have hr : List.mapM.loop f [] [] = Except.ok [] := rfl
    rw [List.mapM] at h
    rw [hr] at h
    cases h
  | cons x xs ih =>
    intro h
    rw [List.mapM_cons] at h
    simp only [bind, Except.bind] at h
    split at h
    · exact hf x (by simp_all)
    · split at h
      · exact ih (by simp_all)
      · simp only [pure, Except.pure] at h
        cases h

theorem reduceRanges_ne_nas (rs : List RangeArgs) :
    reduceRanges rs ≠ .error .notASequence := by
  unfold reduceRanges
  exact mapM_ne_nas _ (fun x => asMake_ne_nas _ _ _) _

theorem parseFileNumSeq_ne_nas (s : List Char) :
    parseFileNumSeq s ≠ .error .notASequence := by
  intro h
  unfold parseFileNumSeq at h
  repeat' split at h
  all_goals (try cases h)
  all_goals
    first
    | exact parseRangesStr_ne_nas _ (by assumption)
    | exact reduceRanges_ne_nas _ (by assumption)

theorem consolidateGo_ne_nas : ∀ (l : List ArithmeticSequence)
    (acc : List ArithmeticSequence) (cur : ArithmeticSequence),
    consolidateGo acc cur l ≠ .error .notASequence := by
  intro l
  induction l with
  | nil =>
    intro acc cur h
    simp only [consolidateGo] at h
    cases h
  | cons b rest ih =>
    intro acc cur h
    simp only [consolidateGo, bind, Except.bind] at h
    repeat' split at h
    all_goals (try cases h)
    all_goals
      first
      | exact ih _ _ (by assumption)
      | exact asMake_ne_nas _ _ _ (by assumption)

theorem consolidateRanges_ne_nas (l : List ArithmeticSequence) :
    consolidateRanges l ≠ .error .notASequence := by
  intro h
  unfold consolidateRanges at h
  split at h
  · cases h
  · exact consolidateGo_ne_nas _ _ _ h

theorem ofRanges_ne_nas (l : List ArithmeticSequence) :
    FileNumSequence.ofRanges l ≠ .error .notASequence := by
  intro h
  unfold FileNumSequence.ofRanges at h
  rcases hc : consolidateRanges l with e | v <;> rw [hc] at h <;>
    simp only [Except.map] at h
  · cases h
    exact consolidateRanges_ne_nas _ hc
  · cases h

theorem fromStr_ne_nas (s : List Char) :
    FileNumSequence.fromStr s ≠ .error .notASequence := by
  intro h
  unfold FileNumSequence.fromStr at h
  simp only [bind, Except.bind] at h
  split at h
  · simp_all
    exact parseFileNumSeq_ne_nas _ (by assumption)
  · exact ofRanges_ne_nas _ h

theorem parsePaddedRange_ne_nas (v : List Char) :
    parsePaddedRange v ≠ .error .notASequence := by
  intro h
  unfold parsePaddedRange at h
  split at h
  · cases h
  · simp only [bind, Except.bind] at h
    split at h
    · simp_all
      exact fromStr_ne_nas _ (by assumption)
    · cases h

theorem parseSuffixesStrictGo_ne_nas : ∀ (v : List Char)
    (buffer : List Char) (acc : List (List Char)),
    parseSuffixesStrictGo buffer acc v ≠ .error .notASequence := by
  intro v
  induction v with
  | nil =>
    intro buffer acc h
    simp only [parseSuffixesStrictGo] at h
    cases h
  | cons c rest ih =>
    intro buffer acc h
    simp only [parseSuffixesStrictGo] at h
    repeat' split at h
    all_goals (try cases h)
    all_goals exact ih _ _ (by assumption)

theorem parseSuffixesStrict_ne_nas (v : List Char) :
    parseSuffixesStrict v ≠ .error .notASequence := by
  intro h
  unfold parseSuffixesStrict at h
  split at h
  · cases h
  · exact parseSuffixesStrictGo_ne_nas _ _ _ h

theorem sstep_ne_nas (st : SState) (acc : SAcc) (t : SToken) :
    sstep st acc t ≠ .error .notASequence := by
  intro h
  unfold sstep at h
  simp only [bind, Except.bind] at h
  repeat' split at h
  all_goals (try cases h)
  all_goals
    first
    | exact parsePaddedRange_ne_nas _ (by assumption)
    | exact parseSuffixesStrict_ne_nas _ (by assumption)

theorem runStrictGo_ne_nas : ∀ (ts : List SToken) (st : SState) (acc : SAcc),
    runStrictGo st acc ts ≠ .error .notASequence := by
  intro ts
  induction ts with
  | nil =>
    intro st acc h
    simp only [runStrictGo] at h
    cases h
  | cons t rest ih =>
    intro st acc h
    simp only [runStrictGo, bind, Except.bind] at h
    split at h
    · cases h
      exact sstep_ne_nas _ _ _ (by assumption)
    · exact ih _ _ h

theorem runStrict_ne_nas (ts : List SToken) :
    runStrict ts ≠ .error .notASequence := by
  intro h
  unfold runStrict at h
  simp only [bind, Except.bind] at h
  split at h
  · cases h
    exact runStrictGo_ne_nas _ _ _ (by assumption)
  · split at h <;> cases h

theorem lstep_ne_nas (st : LState) (acc : LAcc) (t : LToken) :
    lstep st acc t ≠ .error .notASequence := by
  intro h
  unfold lstep at h
  simp only [bind, Except.bind] at h
  repeat' split at h
  all_goals (try cases h)
  all_goals exact parsePaddedRange_ne_nas _ (by assumption)

theorem runLooseGo_ne_nas : ∀ (ts : List LToken) (st : LState) (acc : LAcc),
    runLooseGo st acc ts ≠ .error .notASequence := by
  intro ts
  induction ts with
  | nil =>
    intro st acc h
    simp only [runLooseGo] at h
    cases h
  | cons t rest ih =>
    intro st acc h
    simp only [runLooseGo, bind, Except.bind] at h
    split at h
    · cases h
      exact lstep_ne_nas _ _ _ (by assumption)
    · exact ih _ _ h

theorem looseFinalise_ne_nas (st : LState) (acc : LAcc) :
    looseFinalise st acc ≠ .error .notASequence := by
  intro h
  unfold looseFinalise at h
  simp only [bind, Except.bind] at h
  repeat' split at h
  all_goals cases h

theorem runLoose_ne_nas (ts : List LToken) :
    runLoose ts ≠ .error .notASequence := by
  intro h
  unfold runLoose at h
  simp only [bind, Except.bind] at h
  split at h
  · cases h
    exact runLooseGo_ne_nas _ _ _ (by assumption)
  · exact looseFinalise_ne_nas _ _ h

theorem processPairs_head_range {ps : List (List Char × List Char)}
    {tks : List SToken} (hne : ps ≠ []) (h : processPairs ps = .ok tks) :
    ∃ t ∈ tks, t.type = STokenType.range := by
  match ps, hne with
  | (m, t) :: rest, _ =>
    unfold processPairs at h
    simp only [bind, Except.bind] at h
    repeat' split at h
    all_goals (try cases h)
    · exact ⟨⟨.range, m⟩, by simp, rfl⟩
    · exact ⟨⟨.range, m⟩, by simp, rfl⟩

theorem processPairs_ne_nas : ∀ ps : List (List Char × List Char),
    processPairs ps ≠ .error .notASequence := by
  intro ps
  induction ps with
  | nil =>
    intro h
    simp only [processPairs] at h
    cases h
  | cons p rest ih =>
    intro h
    unfold processPairs at h
    simp only [bind, Except.bind] at h
    repeat' split at h
    all_goals (try cases h)
    exact ih (by assumption)

theorem processTokens_ne_nas {s t0 : List Char}
    {ps : List (List Char × List Char)} (hne : ps ≠ []) :
    processTokens s t0 ps ≠ .error .notASequence := by
  intro h
  unfold processTokens at h
  simp only [bind, Except.bind] at h
  split at h
  · cases h
  · split at h
    · cases h
    · split at h
      · cases h
      · split at h
        · cases h
          exact processPairs_ne_nas _ (by assumption)
        · rename_i tks hpp
          split at h
          · rename_i hall
            obtain ⟨t, hmem, hty⟩ := processPairs_head_range hne hpp
            have hm : t ∈ stemTokensStrict t0 ++ tks := by
              simp [hmem]
            have := List.all_eq_true.mp hall t hm
            simp [hty] at this
          · cases h

theorem matchSNum_none_of_head {c : Char} {t : List Char} (h1 : c ≠ '-')
    (h2 : isDigitCh c = false) : matchSNum (c :: t) = none := by
  unfold matchSNum
  split
  · rename_i rest heq
    cases heq
    exact absurd rfl h1
  · unfold matchUNum
    rcases hds : takeDigits (c :: t) with ⟨ds, r⟩
    simp only [takeDigits, h2] at hds
    obtain ⟨rfl, rfl⟩ := Prod.mk.injEq .. ▸ hds
    simp

theorem matchRangesPart_of_padStart {c : Char} {t : List Char}
    (h1 : c ≠ '-') (h2 : isDigitCh c = false) :
    matchRangesPart (c :: t) = ([], c :: t) := by
  unfold matchRangesPart matchRangeSpec
  rw [matchSNum_none_of_head h1 h2]

theorem matchPad_hash_isSome (t : List Char) :
    (matchPad ('#' :: t)).isSome = true := by
  simp only [matchPad]
  split <;> simp

theorem matchPad_udim (t : List Char) :
    matchPad (chars "<UDIM>" ++ t) = some (chars "<UDIM>", t) := by
  show matchPad ('<' :: 'U' :: 'D' :: 'I' :: 'M' :: '>' :: t) = _
  simp only [matchPad]
  have hp : (chars "<UDIM>").isPrefixOf
      ('<' :: 'U' :: 'D' :: 'I' :: 'M' :: '>' :: t) = true := by
    rw [show ('<' :: 'U' :: 'D' :: 'I' :: 'M' :: '>' :: t) =
      chars "<UDIM>" ++ t from rfl, List.isPrefixOf_iff_prefix]
    exact ⟨t, rfl⟩
  rw [hp]
  simp [chars]

theorem matchPad_uvtile (t : List Char) :
    matchPad (chars "<UVTILE>" ++ t) = some (chars "<UVTILE>", t) := by
  show matchPad ('<' :: 'U' :: 'V' :: 'T' :: 'I' :: 'L' :: 'E' :: '>' :: t) = _
  simp only [matchPad]
  have hud : (chars "<UDIM>").isPrefixOf
      ('<' :: 'U' :: 'V' :: 'T' :: 'I' :: 'L' :: 'E' :: '>' :: t) = false := by
    simp [chars, List.isPrefixOf]
  have hp : (chars "<UVTILE>").isPrefixOf
      ('<' :: 'U' :: 'V' :: 'T' :: 'I' :: 'L' :: 'E' :: '>' :: t) = true := by
    rw [show ('<' :: 'U' :: 'V' :: 'T' :: 'I' :: 'L' :: 'E' :: '>' :: t) =
      chars "<UVTILE>" ++ t from rfl, List.isPrefixOf_iff_prefix]
    exact ⟨t, rfl⟩
  rw [hud, hp]
  simp [chars]

theorem matchRangesToken_isSome_of_padStart {s : List Char}
    (h : padStart s = true) : (matchRangesToken s).isSome = true := by
  unfold padStart at h
  simp only [Bool.or_eq_true, beq_iff_eq] at h
  rcases h with (h | h) | h
  · rcases s with _ | ⟨c, t⟩
    · simp at h
    · simp only [List.head?] at h
      cases Option.some.injEq .. ▸ h
      unfold matchRangesToken
      rw [matchRangesPart_of_padStart (by decide) (by decide)]
      rcases hmp : matchPad ('#' :: t) with _ | ⟨p, r⟩
      · have := matchPad_hash_isSome t
        rw [hmp] at this
        cases this
      · simp [hmp]
  · obtain ⟨t, rfl⟩ : ∃ t, chars "<UDIM>" ++ t = s := by
      obtain ⟨t, ht⟩ := List.isPrefixOf_iff_prefix.mp h
      exact ⟨t, ht⟩
    unfold matchRangesToken
    rw [show chars "<UDIM>" ++ t =
      '<' :: ('U' :: 'D' :: 'I' :: 'M' :: '>' :: t) from rfl]
    rw [matchRangesPart_of_padStart (by decide) (by decide)]
    rw [show ('<' :: ('U' :: 'D' :: 'I' :: 'M' :: '>' :: t)) =
      chars "<UDIM>" ++ t from rfl]
    simp [matchPad_udim]
  · obtain ⟨t, rfl⟩ : ∃ t, chars "<UVTILE>" ++ t = s := by
      obtain ⟨t, ht⟩ := List.isPrefixOf_iff_prefix.mp h
      exact ⟨t, ht⟩
    unfold matchRangesToken
    rw [show chars "<UVTILE>" ++ t =
      '<' :: ('U' :: 'V' :: 'T' :: 'I' :: 'L' :: 'E' :: '>' :: t) from rfl]
    rw [matchRangesPart_of_padStart (by decide) (by decide)]
    rw [show ('<' :: ('U' :: 'V' :: 'T' :: 'I' :: 'L' :: 'E' :: '>' :: t)) =
      chars "<UVTILE>" ++ t from rfl]
    simp [matchPad_uvtile]

theorem matchRangesToken_nil : matchRangesToken [] = none := rfl

theorem scanSeq_pairs_token : ∀ (fuel : Nat) (s : List Char),
    (scanSeq fuel s).2 ≠ [] →
    ∃ i, (matchRangesToken (s.drop i)).isSome = true := by
  intro fuel
  induction fuel with
  | zero =>
    intro s h
    simp [scanSeq] at h
  | succ n ih =>
    intro s h
    match s with
    | [] => simp [scanSeq] at h
    | c :: rest =>
      simp only [scanSeq] at h
      split at h
      · rename_i m r hm
        exact ⟨0, by simp [hm]⟩
      · rcases hs : scanSeq n rest with ⟨t, ps⟩
        rw [hs] at h
        simp only at h
        obtain ⟨i, hi⟩ := ih rest (by simp [hs]; exact fun hc => h (by simp [hc]))
        exact ⟨i + 1, by simpa using hi⟩

theorem scanSeq_token_pairs : ∀ (fuel : Nat) (s : List Char) (i : Nat),
    s.length < fuel → (matchRangesToken (s.drop i)).isSome = true →
    (scanSeq fuel s).2 ≠ [] := by
  intro fuel
  induction fuel with
  | zero =>
    intro s i hf
    exact absurd hf (Nat.not_lt_zero _)
  | succ n ih =>
    intro s i hf hi
    match s with
    | [] =>
      rw [List.drop_nil] at hi
      rw [matchRangesToken_nil] at hi
      cases hi
    | c :: rest =>
      simp only [scanSeq]
      split
      · simp
      · rename_i hnone
        rcases hs : scanSeq n rest with ⟨t, ps⟩
        simp only [hs]
        match i with
        | 0 =>
          rw [List.drop_zero] at hi
          rw [hnone] at hi
          cases hi
        | j + 1 =>
          have : (scanSeq n rest).2 ≠ [] :=
            ih rest j (by simp at hf ⊢; omega) (by simpa using hi)
          rw [hs] at this
          simpa using this

theorem hasRangeToken_iff_split (s : List Char) :
    hasRangeToken s = true ↔ (splitSeq s).2 ≠ [] := by
  constructor
  · intro h
    obtain ⟨i, hlt, hi⟩ := by
      simpa [hasRangeToken, List.any_eq_true, List.mem_range] using h
    exact scanSeq_token_pairs (s.length + 1) s i (by omega) hi
  · intro h
    obtain ⟨i, hi⟩ := scanSeq_pairs_token (s.length + 1) s h
    have hle : i < s.length + 1 := by
      by_contra hgt
      rw [List.drop_eq_nil_of_le (by omega)] at hi
      rw [matchRangesToken_nil] at hi
      cases hi
    simp only [hasRangeToken, List.any_eq_true, List.mem_range]
    exact ⟨i, hle, hi⟩

theorem t0TokensLoose_no_range (t0 : List Char) (e : Bool) :
    ∀ tk ∈ t0TokensLoose t0 e, tk.type ≠ LTokenType.range := by
  intro tk htk
  unfold t0TokensLoose at htk
  repeat' split at htk
  all_goals simp_all
  all_goals (rcases htk with h | h | h <;> simp_all)

theorem bodyTokensLoose_head_range (starts popped : Bool)
    (p : List Char × List Char) (rest : List (List Char × List Char)) :
    ∃ tk ∈ bodyTokensLoose starts popped (p :: rest),
      tk.type = LTokenType.range := by
  rcases p with ⟨m, t⟩
  rcases rest with _ | ⟨q, qs⟩
  · exact ⟨⟨.range, m⟩, by simp [bodyTokensLoose], rfl⟩
  · exact ⟨⟨.range, m⟩, by simp [bodyTokensLoose], rfl⟩

theorem strictParse_nas_iff (s : List Char) :
    (parsePathSequence s = .error .notASequence ↔ hasRangeToken s = false) ∧
    (parsePathSequence s = .error .parseError → hasRangeToken s = true) := by
  unfold parsePathSequence tokeniseSeq
  simp only [bind, Except.bind]
  rcases hsp : splitSeq s with ⟨t0, ps⟩
  have hiff := hasRangeToken_iff_split s
  rw [hsp] at hiff
  rcases ps with _ | ⟨p, pr⟩
  · simp only
    constructor
    · constructor
      · intro _
        simp only [Bool.eq_false_iff]
        intro hc
        exact (hiff.mp hc) rfl
      · intro _
        trivial
    · intro h
      exact absurd h (by decide)
  · have hr : hasRangeToken s = true := hiff.mpr (by simp)
    constructor
    · constructor
      · intro h
        exfalso
        split at h
        · rename_i e he
          cases h
          exact processTokens_ne_nas (by simp) he
        · exact runStrict_ne_nas _ h
      · intro hf
        rw [hr] at hf
        cases hf
    · intro _
      exact hr

theorem tokeniseLoose_nil_pairs {s t0 : List Char}
    (hsp : splitSeq s = (t0, [])) :
    tokeniseLoose s = .error .notASequence := by
  unfold tokeniseLoose
  rw [hsp]
  simp only [bodyTokensLoose, List.append_nil]
  rw [if_pos]
  exact List.all_eq_true.mpr fun tk htk => by
    simpa using t0TokensLoose_no_range t0 _ tk htk

theorem tokeniseLoose_cons_pairs {s t0 : List Char}
    {p : List Char × List Char} {pr : List (List Char × List Char)}
    (hsp : splitSeq s = (t0, p :: pr)) :
    ∃ ts, tokeniseLoose s = .ok ts := by
  unfold tokeniseLoose
  rw [hsp]
  dsimp only
  rw [if_neg]
  · exact ⟨_, rfl⟩
  · intro htrue
    obtain ⟨tk, htk, hty⟩ := bodyTokensLoose_head_range t0.isEmpty
      ((Option.map (fun (x : List Char × List Char) => x.2)
        (p :: pr).getLast?).getD t0).isEmpty p pr
    have := List.all_eq_true.mp htrue tk (by simp [htk])
    simp [hty] at this

theorem looseParse_nas_iff (s : List Char) :
    (parseLoosePathSequence s = .error .notASequence ↔
      hasRangeToken s = false) ∧
    (parseLoosePathSequence s = .error .parseError → hasRangeToken s = true) := by
  have hiff := hasRangeToken_iff_split s
  rcases hsp : splitSeq s with ⟨t0, ps⟩
  rw [hsp] at hiff
  rcases ps with _ | ⟨p, pr⟩
  · have htok := tokeniseLoose_nil_pairs hsp
    unfold parseLoosePathSequence
    rw [htok]
    simp only [bind, Except.bind]
    constructor
    · constructor
      · intro _
        simp only [Bool.eq_false_iff]
        intro hc
        exact (hiff.mp hc) rfl
      · intro _
        trivial
    · intro h
      exact absurd h (by decide)
  · have hr : hasRangeToken s = true := hiff.mpr (by simp)
    obtain ⟨ts, htok⟩ := tokeniseLoose_cons_pairs hsp
    unfold parseLoosePathSequence
    rw [htok]
    simp only [bind, Except.bind]
    constructor
    · constructor
      · intro h
        exact absurd h (runLoose_ne_nas _)
      · intro hf
        rw [hr] at hf
        cases hf
    · intro _
      exact hr

/-! ### Token text and splicing lemmas -/

theorem concatAll_append : ∀ xs ys : List (List Char),
    concatAll (xs ++ ys) = concatAll xs ++ concatAll ys
  | [], ys => rfl
  | x :: xs, ys => by
    show x ++ concatAll (xs ++ ys) = (x ++ concatAll xs) ++ concatAll ys
    rw [concatAll_append xs ys, List.append_assoc]

theorem sTokensText_append (a b : List SToken) :
    sTokensText (a ++ b) = sTokensText a ++ sTokensText b := by
  simp [sTokensText, concatAll_append]

theorem lTokensText_append (a b : List LToken) :
    lTokensText (a ++ b) = lTokensText a ++ lTokensText b := by
  simp [lTokensText, concatAll_append]

theorem dropLast_append_getLast : ∀ (l : List Char) (c : Char),
    l.getLast? = some c → l.dropLast ++ [c] = l
  | [], c, h => by simp at h
  | [a], c, h => by
    simp only [List.getLast?_singleton, Option.some.injEq] at h
    simp [h]
  | a :: b :: rest, c, h => by
    rw [List.getLast?_cons_cons] at h
    have := dropLast_append_getLast (b :: rest) c h
    simp only [List.dropLast_cons₂, List.cons_append, this]

theorem stemTokensStrict_concat (t0 : List Char) :
    sTokensText (stemTokensStrict t0) = t0 := by
  unfold stemTokensStrict
  split
  · rename_i hcond
    simp only [Bool.and_eq_true, Bool.or_eq_true, beq_iff_eq] at hcond
    obtain ⟨-, hlast⟩ := hcond
    rcases hlast with hlast | hlast
    all_goals
      simp only [sTokensText, List.map_cons, List.map_nil, concatAll,
        List.append_nil, hlast, Option.getD_some]
    all_goals exact dropLast_append_getLast _ _ hlast
  · simp [sTokensText, concatAll]

theorem processPairs_concat : ∀ (ps : List (List Char × List Char))
    (tks : List SToken), processPairs ps = .ok tks →
    sTokensText tks = concatAll (ps.map fun p => p.1 ++ p.2) := by
  intro ps
  induction ps with
  | nil =>
    intro tks h
    simp only [processPairs] at h
    cases h
    rfl
  | cons p rest ih =>
    intro tks h
    rcases p with ⟨m, t⟩
    unfold processPairs at h
    simp only [bind, Except.bind] at h
    rcases rest with _ | ⟨q, qs⟩
    · simp only at h
      split at h
      · cases h
        simp [sTokensText, concatAll]
      · cases h
    · simp only at h
      split at h
      · cases h
      · split at h
        · cases h
        · split at h
          · cases h
          · rename_i tks2 hrec
            cases h
            have := ih _ hrec
            simp only [List.map_cons, concatAll, sTokensText, List.map_cons,
              List.map_nil] at this ⊢
            rw [this]
            simp

theorem tokeniseSeq_concat {s : List Char} {tks : List SToken}
    (h : tokeniseSeq s = .ok tks) : sTokensText tks = s := by
  unfold tokeniseSeq at h
  rcases hsp : splitSeq s with ⟨t0, ps⟩
  rw [hsp] at h
  rcases ps with _ | ⟨p, pr⟩
  · cases h
  · unfold processTokens at h
    simp only [bind, Except.bind] at h
    split at h
    · cases h
    · split at h
      · cases h
      · split at h
        · cases h
        · split at h
          · cases h
          · rename_i body hpp
            split at h
            · cases h
            · cases h
              rw [sTokensText_append, stemTokensStrict_concat,
                processPairs_concat _ _ hpp]
              have := splitSeq_join s
              rw [hsp] at this
              exact this

theorem spliceRender_single (r : List Char) : spliceRender [r] [] = r := by
  simp [spliceRender]

theorem spliceRender_snoc_inter : ∀ (rs is_ : List (List Char))
    (v : List Char), rs.length = is_.length + 1 →
    spliceRender rs (is_ ++ [v]) = spliceRender rs is_ ++ v := by
  intro rs
  induction rs with
  | nil => intro is_ v h; simp at h
  | cons r0 rs' ih =>
    intro is_ v h
    rcases is_ with _ | ⟨i0, is2⟩
    · have : rs' = [] := List.length_eq_zero.mp (by simpa using h)
      subst this
      simp [spliceRender]
    · simp only [List.length_cons, Nat.add_right_cancel_iff] at h
      simp only [List.cons_append, spliceRender, List.zip_cons_cons,
        List.map_cons, List.flatten_cons] at *
      rw [ih is2 v (by simpa using h)]
      simp [List.append_assoc]

theorem spliceRender_snoc_range : ∀ (rs is_ : List (List Char))
    (r : List Char), rs.length = is_.length →
    spliceRender (rs ++ [r]) is_ = spliceRender rs is_ ++ r := by
  intro rs
  induction rs with
  | nil =>
    intro is_ r h
    have : is_ = [] := List.length_eq_zero.mp (by simpa using h.symm)
    subst this
    simp [spliceRender]
  | cons r0 rs' ih =>
    intro is_ r h
    rcases is_ with _ | ⟨i0, is2⟩
    · simp at h
    · simp only [List.length_cons, Nat.add_right_cancel_iff] at h
      simp only [List.cons_append, spliceRender, List.zip_cons_cons,
        List.map_cons, List.flatten_cons] at *
      rw [ih is2 r h]
      simp [List.append_assoc]

theorem parseSuffixesStrictGo_concat : ∀ (v buffer : List Char)
    (acc : List (List Char)) (out : List (List Char)),
    parseSuffixesStrictGo buffer acc v = .ok out →
    concatAll out = concatAll acc ++ buffer ++ v := by
  intro v
  induction v with
  | nil =>
    intro buffer acc out h
    simp only [parseSuffixesStrictGo] at h
    cases h
    simp [concatAll_append, concatAll]
  | cons c rest ih =>
    intro buffer acc out h
    simp only [parseSuffixesStrictGo] at h
    split at h
    · rename_i hdot
      split at h
      · cases h
      · have := ih _ _ _ h
        rw [this]
        simp only [concatAll_append, concatAll, List.append_nil]
        rw [beq_iff_eq] at hdot
        subst hdot
        simp [List.append_assoc]
    · have := ih _ _ _ h
      rw [this]
      simp [List.append_assoc]

theorem parseSuffixesStrict_concat {v : List Char} {out : List (List Char)}
    (h : parseSuffixesStrict v = .ok out) : concatAll out = v := by
  unfold parseSuffixesStrict at h
  split at h
  · cases h
    rfl
  · have := parseSuffixesStrictGo_concat _ _ _ _ h
    rw [this]
    simp [concatAll]

theorem parseSuffixesLooseGo_concat : ∀ (v buffer : List Char)
    (acc : List (List Char)),
    concatAll (parseSuffixesLooseGo buffer acc v) =
      concatAll acc ++ buffer ++ v := by
  intro v
  induction v with
  | nil =>
    intro buffer acc
    simp [parseSuffixesLooseGo, concatAll_append, concatAll]
  | cons c rest ih =>
    intro buffer acc
    simp only [parseSuffixesLooseGo]
    split
    · rename_i hdot
      rw [ih]
      simp only [concatAll_append, concatAll, List.append_nil]
      rw [beq_iff_eq] at hdot
      subst hdot
      simp [List.append_assoc]
    · rw [ih]
      simp [List.append_assoc]

theorem parseSuffixesLoose_concat (v : List Char) :
    concatAll (parseSuffixesLoose v) = v := by
  unfold parseSuffixesLoose
  split
  · rfl
  · rw [parseSuffixesLooseGo_concat]
    simp [concatAll]

theorem canonicalTok_render {v : List Char} {pr : PaddedRange}
    (hc : canonicalTok v = true) (hpr : parsePaddedRange v = .ok pr) :
    pr.render = v := by
  unfold canonicalTok at hc
  rw [hpr] at hc
  exact beq_iff_eq.mp hc

theorem sstep_inv {st : SState} {acc : SAcc} {t : SToken} {st2 : SState}
    {acc2 : SAcc} (h : sstep st acc t = .ok (st2, acc2))
    (hstruct : SInvStruct st acc)
    (hcanon : t.type = STokenType.range → canonicalTok t.value = true) :
    SInvStruct st2 acc2 ∧ srender st2 acc2 = srender st acc ++ t.value := by
  obtain ⟨ty, v⟩ := t
  cases st <;> cases ty <;> simp only [sstep, bind, Except.bind] at h <;>
    (try cases h)
  case mk.init.stem.refl =>
    obtain ⟨h1, h2, h3, h4⟩ := hstruct
    exact ⟨⟨h2, h3, h4⟩, by simp [srender]⟩
  case mk.stemSt.prefixSep.refl =>
    obtain ⟨h1, h2, h3⟩ := hstruct
    exact ⟨⟨h2, h3⟩, by simp [srender]⟩
  case mk.stemSt.range =>
    split at h
    · cases h
    · rename_i pr hpr
      cases h
      obtain ⟨h1, h2, h3⟩ := hstruct
      have hrv := canonicalTok_render (hcanon rfl) hpr
      refine ⟨by simp [SInvStruct, h2, h3], ?_⟩
      simp [srender, h1, h2, h3, spliceRender_single, hrv]
  case mk.inPrefix.range =>
    split at h
    · cases h
    · rename_i pr hpr
      cases h
      obtain ⟨h1, h2⟩ := hstruct
      have hrv := canonicalTok_render (hcanon rfl) hpr
      refine ⟨by simp [SInvStruct, h1, h2], ?_⟩
      simp [srender, h1, h2, spliceRender_single, hrv]
  case mk.rangeInName.interRange.refl =>
    refine ⟨by simpa [SInvStruct] using hstruct, ?_⟩
    simp only [srender]
    rw [spliceRender_snoc_inter _ _ _ (by simpa [SInvStruct] using hstruct.symm)]
    simp
  case mk.rangeInName.suffixes =>
    split at h
    · cases h
    · rename_i sx hsx
      cases h
      refine ⟨trivial, ?_⟩
      simp [srender, parseSuffixesStrict_concat hsx]
  case mk.inInterRange.range =>
    split at h
    · cases h
    · rename_i pr hpr
      cases h
      have hrv := canonicalTok_render (hcanon rfl) hpr
      have hlen : (acc.ranges.map PaddedRange.render).length =
          acc.interRanges.length := by
        simpa [SInvStruct] using hstruct.symm
      refine ⟨by simpa [SInvStruct] using hstruct, ?_⟩
      simp only [srender, List.map_append, List.map_cons, List.map_nil]
      rw [spliceRender_snoc_range _ _ _ hlen]
      simp [hrv]

theorem runStrictGo_inv : ∀ (ts : List SToken) (st : SState) (acc : SAcc)
    (st2 : SState) (acc2 : SAcc),
    runStrictGo st acc ts = .ok (st2, acc2) → SInvStruct st acc →
    (∀ t ∈ ts, t.type = STokenType.range → canonicalTok t.value = true) →
    SInvStruct st2 acc2 ∧
      srender st2 acc2 = srender st acc ++ sTokensText ts := by
  intro ts
  induction ts with
  | nil =>
    intro st acc st2 acc2 h hstruct _
    simp only [runStrictGo] at h
    cases h
    exact ⟨hstruct, by simp [sTokensText, concatAll]⟩
  | cons t rest ih =>
    intro st acc st2 acc2 h hstruct hcanon
    simp only [runStrictGo, bind, Except.bind] at h
    split at h
    · cases h
    · rename_i p hp
      rcases p with ⟨stm, accm⟩
      obtain ⟨hstruct2, hrender⟩ := sstep_inv hp hstruct
        (fun hty => hcanon t (by simp) hty)
      obtain ⟨hstruct3, hrender3⟩ := ih stm accm st2 acc2 h hstruct2
        (fun u hu => hcanon u (by simp [hu]))
      refine ⟨hstruct3, ?_⟩
      rw [hrender3, hrender]
      simp [sTokensText, concatAll, List.append_assoc]

theorem runStrict_render {ts : List SToken} {ast : ParsedSequence}
    (h : runStrict ts = .ok ast)
    (hc : ∀ t ∈ ts, t.type = STokenType.range → canonicalTok t.value = true) :
    ast.render = sTokensText ts := by
  unfold runStrict at h
  simp only [bind, Except.bind] at h
  split at h
  · cases h
  · rename_i p hp
    rcases p with ⟨st2, acc2⟩
    split at h
    · rename_i hst
      cases h
      obtain ⟨-, hr⟩ := runStrictGo_inv ts .init {} st2 acc2 hp
        (by simp [SInvStruct]) hc
      have hst2 : st2 = .inSuffixes := by simpa using hst
      subst hst2
      simpa [ParsedSequence.render, srender] using hr
    · cases h

theorem lTokensText_optional (ty : LTokenType) (x : List Char) :
    lTokensText (if x.isEmpty then ([] : List LToken) else [⟨ty, x⟩]) = x := by
  split
  · rename_i hx
    rw [List.isEmpty_iff] at hx
    simp [hx, lTokensText, concatAll]
  · simp [lTokensText, concatAll]

theorem t0TokensLoose_concat (t0 : List Char) (e : Bool) :
    lTokensText (t0TokensLoose t0 e) = t0 := by
  unfold t0TokensLoose
  split
  · rename_i h0
    rw [List.isEmpty_iff] at h0
    simp [h0, lTokensText, concatAll]
  · split
    · split
      · rename_i hcond
        simp only [Bool.and_eq_true, Bool.or_eq_true, beq_iff_eq] at hcond
        obtain ⟨-, hlast⟩ := hcond
        rcases hl : t0.getLast? with _ | c
        · rw [hl] at hlast
          simp at hlast
        · rw [hl] at hlast
          simp only [lTokensText, List.map_cons, List.map_nil, concatAll,
            List.append_nil, hl, Option.getD_some]
          exact dropLast_append_getLast _ _ hl
      · simp [lTokensText, concatAll]
    · by_cases hsep : (t0.getLast?.map isPrefixSepCh).getD false = true
      · simp only [hsep, if_true]
        rcases hl : t0.getLast? with _ | c
        · rw [hl] at hsep
          simp at hsep
        · rw [lTokensText_append, lTokensText_append, lTokensText_optional]
          simp only [lTokensText, List.map_cons, List.map_nil, concatAll,
            List.append_nil, hl, Option.getD_some]
          rw [List.take_append_drop]
          exact dropLast_append_getLast _ _ hl
      · simp only [hsep, if_false]
        rw [lTokensText_append, lTokensText_append, lTokensText_optional]
        simp only [lTokensText, List.map_nil, concatAll, List.append_nil]
        rw [List.take_append_drop]
        simp

theorem finalTokensLoose_concat (tk : List Char) (starts : Bool) :
    lTokensText (finalTokensLoose tk starts) = tk := by
  unfold finalTokensLoose
  split
  · simp [lTokensText, concatAll]
  · split
    · by_cases hpost : (tk.head? == some '_') = true
      · simp only [hpost, if_true]
        rcases tk with _ | ⟨c0, rest⟩
        · simp at hpost
        · simp only [List.head?, Option.some.injEq, beq_iff_eq] at hpost
          subst hpost
          rw [lTokensText_append, lTokensText_append, lTokensText_optional,
            lTokensText_optional]
          simp only [lTokensText, List.map_cons, List.map_nil, concatAll,
            List.append_nil, List.head?, Option.getD_some]
          rw [List.append_assoc, List.take_append_drop]
          simp
      · simp only [hpost, if_false]
        rw [lTokensText_append, lTokensText_append, lTokensText_optional,
          lTokensText_optional]
        simp only [lTokensText, List.map_nil, concatAll]
        rw [List.nil_append, List.take_append_drop]
        simp
    · rw [lTokensText_append, lTokensText_optional, lTokensText_optional]
      rw [List.take_append_drop]

theorem lTokensText_cons (a : LToken) (l : List LToken) :
    lTokensText (a :: l) = a.value ++ lTokensText l := by
  simp [lTokensText, concatAll]

theorem bodyTokensLoose_concat : ∀ (ps : List (List Char × List Char))
    (starts popped : Bool),
    (popped = true → (ps.getLast?.map (·.2)).getD [] = []) →
    lTokensText (bodyTokensLoose starts popped ps) =
      concatAll (ps.map fun p => p.1 ++ p.2) := by
  intro ps
  induction ps with
  | nil => intro starts popped _; simp [bodyTokensLoose, lTokensText, concatAll]
  | cons p rest ih =>
    intro starts popped hlast
    rcases p with ⟨m, t⟩
    rcases rest with _ | ⟨q, qs⟩
    · simp only [bodyTokensLoose]
      rcases hpop : popped with _ | _
      · simp only [hpop, Bool.false_eq_true, if_false]
        rw [lTokensText_cons, finalTokensLoose_concat]
        simp [concatAll]
      · have ht : t = [] := by
          have := hlast hpop
          simpa using this
        subst ht
        simp [hpop, lTokensText, concatAll]
    · simp only [bodyTokensLoose]
      have hrec := ih starts popped (by
        intro hp
        have := hlast hp
        simpa using this)
      rw [lTokensText_cons, lTokensText_cons, hrec]
      simp [concatAll, List.append_assoc]

theorem tokeniseLoose_concat {s : List Char} {ts : List LToken}
    (h : tokeniseLoose s = .ok ts) : lTokensText ts = s := by
  unfold tokeniseLoose at h
  rcases hsp : splitSeq s with ⟨t0, ps⟩
  rw [hsp] at h
  dsimp only at h
  split at h
  · cases h
  · cases h
    rw [lTokensText_append, t0TokensLoose_concat]
    rw [bodyTokensLoose_concat ps t0.isEmpty _ (fun hp => by
      rcases ps with _ | ⟨p, pr⟩
      · simp
      · simpa using hp)]
    have := splitSeq_join s
    rw [hsp] at this
    exact this

theorem lstep_inv {st : LState} {acc : LAcc} {t : LToken} {st2 : LState}
    {acc2 : LAcc} (h : lstep st acc t = .ok (st2, acc2))
    (hstruct : LInvStruct st acc)
    (hcanon : t.type = LTokenType.range → canonicalTok t.value = true) :
    LInvStruct st2 acc2 ∧ lrender st2 acc2 = lrender st acc ++ t.value := by
  obtain ⟨ty, v⟩ := t
  cases st <;> cases ty <;> simp only [lstep, bind, Except.bind] at h <;>
    (try cases h)
  case init.range =>
    split at h
    · cases h
    · rename_i pr hpr
      cases h
      obtain ⟨h1, h2, h3, h4, h5, h6⟩ := hstruct
      have hrv := canonicalTok_render (hcanon rfl) hpr
      refine ⟨by simp [LInvStruct, h1, h2, h3, h4, h5, h6], ?_⟩
      simp [lrender, h1, h2, h3, h4, h5, h6, spliceRender_single, hrv]
  case init.stem.refl =>
    obtain ⟨h1, h2, h3, h4, h5, h6⟩ := hstruct
    exact ⟨⟨h2, h3, h4, h5, h6⟩, by simp [lrender]⟩
  case rangeStartsName.interRange.refl =>
    obtain ⟨h1, h2, h3, h4, h5, h6⟩ := hstruct
    refine ⟨⟨h1, h2, h3, h4, by simpa using h5, h6⟩, ?_⟩
    simp only [lrender]
    rw [spliceRender_snoc_inter _ _ _ (by simpa using h5.symm)]
  case rangeStartsName.range =>
    split at h
    · cases h
    · rename_i pr hpr
      cases h
      obtain ⟨h1, h2, h3, h4, h5, h6⟩ := hstruct
      have hrv := canonicalTok_render (hcanon rfl) hpr
      refine ⟨⟨h1, h2, h3, h4, by simpa using h5, rfl⟩, ?_⟩
      simp only [lrender, List.map_append, List.map_cons, List.map_nil]
      rw [spliceRender_snoc_range _ _ _ (by simp; omega)]
      rw [spliceRender_snoc_inter _ _ _ (by simpa using h5.symm)]
      simp [hrv]
  case rangeStartsName.suffixes.refl =>
    obtain ⟨h1, h2, h3, h4, h5, h6⟩ := hstruct
    refine ⟨rfl, ?_⟩
    simp [lrender, h1, h2, h3, h4, parseSuffixesLoose_concat]
  case rangeStartsName.postfixSep.refl =>
    obtain ⟨h1, h2, h3, h4, h5, h6⟩ := hstruct
    exact ⟨⟨h1, h2, h4, h6⟩, by simp [lrender, h3]⟩
  case rangeStartsName.stem.refl =>
    obtain ⟨h1, h2, h3, h4, h5, h6⟩ := hstruct
    exact ⟨⟨h2, h4, h6⟩, by simp [lrender, h3]⟩
  case startsInterRange.range =>
    split at h
    · cases h
    · rename_i pr hpr
      cases h
      obtain ⟨h1, h2, h3, h4, h5, h6⟩ := hstruct
      have hrv := canonicalTok_render (hcanon rfl) hpr
      refine ⟨⟨h1, h2, h3, h4, by simpa using h5, rfl⟩, ?_⟩
      simp only [lrender, List.map_append, List.map_cons, List.map_nil]
      rw [spliceRender_snoc_range _ _ _ (by simp; omega)]
      simp [hrv]
  case startsPostfix.stem.refl =>
    obtain ⟨h1, h2, h3, h4⟩ := hstruct
    exact ⟨⟨h2, h3, h4⟩, by simp [lrender]⟩
  case startsStem.suffixes.refl =>
    obtain ⟨h1, h2, h3⟩ := hstruct
    exact ⟨⟨h1, h3⟩, by simp [lrender, parseSuffixesLoose_concat]⟩
  case rangeLater.prefixSep.refl =>
    obtain ⟨h1, h2, h3, h4, h5⟩ := hstruct
    exact ⟨⟨h2, h3, h4, h5⟩, by simp [lrender]⟩
  case rangeLater.range =>
    split at h
    · cases h
    · rename_i pr hpr
      cases h
      obtain ⟨h1, h2, h3, h4, h5⟩ := hstruct
      have hrv := canonicalTok_render (hcanon rfl) hpr
      refine ⟨⟨by simp [h2, h3], h4, h5, rfl⟩, ?_⟩
      simp [lrender, h1, h2, h3, spliceRender_single, hrv]
  case rangeLater.suffixes.refl =>
    obtain ⟨h1, h2, h3, h4, h5⟩ := hstruct
    exact ⟨⟨h1, h2, h3, h4, rfl⟩, by
      simp [lrender, parseSuffixesLoose_concat]⟩
  case inPrefix.range =>
    split at h
    · cases h
    · rename_i pr hpr
      cases h
      obtain ⟨h1, h2, h3, h4⟩ := hstruct
      have hrv := canonicalTok_render (hcanon rfl) hpr
      refine ⟨⟨by simp [h1, h2], h3, h4, rfl⟩, ?_⟩
      simp [lrender, h1, h2, spliceRender_single, hrv]
  case rangeInName.interRange.refl =>
    obtain ⟨h1, h2, h3, h4⟩ := hstruct
    refine ⟨⟨by simpa using h1, h2, h3, h4⟩, ?_⟩
    simp only [lrender]
    rw [spliceRender_snoc_inter _ _ _ (by simpa using h1.symm)]
    simp
  case rangeInName.postfixSep.refl =>
    obtain ⟨h1, h2, h3, h4⟩ := hstruct
    exact ⟨⟨h3, h4⟩, by simp [lrender, h2]⟩
  case rangeInName.suffixes.refl =>
    obtain ⟨h1, h2, h3, h4⟩ := hstruct
    exact ⟨h4, by simp [lrender, h2, h3, parseSuffixesLoose_concat]⟩
  case inInterRange.range =>
    split at h
    · cases h
    · rename_i pr hpr
      cases h
      obtain ⟨h1, h2, h3, h4⟩ := hstruct
      have hrv := canonicalTok_render (hcanon rfl) hpr
      refine ⟨⟨by simpa using h1, h2, h3, rfl⟩, ?_⟩
      simp only [lrender, List.map_append, List.map_cons, List.map_nil]
      rw [spliceRender_snoc_range _ _ _ (by simp; omega)]
      simp [hrv]
  case inPostfix.suffixes.refl =>
    obtain ⟨h1, h2⟩ := hstruct
    exact ⟨h2, by simp [lrender, parseSuffixesLoose_concat]⟩
  case rangeEndsName.prefixSep.refl =>
    obtain ⟨h1, h2, h3, h4, h5⟩ := hstruct
    exact ⟨⟨h2, h3, h4, h5⟩, by simp [lrender]⟩
  case rangeEndsName.range =>
    split at h
    · cases h
    · rename_i pr hpr
      cases h
      obtain ⟨h1, h2, h3, h4, h5⟩ := hstruct
      have hrv := canonicalTok_render (hcanon rfl) hpr
      refine ⟨⟨by simp [h2, h3], h4, h5⟩, ?_⟩
      simp [lrender, h1, h2, h3, spliceRender_single, hrv]
  case endsPrefix.range =>
    split at h
    · cases h
    · rename_i pr hpr
      cases h
      obtain ⟨h1, h2, h3, h4⟩ := hstruct
      have hrv := canonicalTok_render (hcanon rfl) hpr
      refine ⟨⟨by simp [h1, h2], h3, h4⟩, ?_⟩
      simp [lrender, h1, h2, spliceRender_single, hrv]
  case endsRange.interRange.refl =>
    obtain ⟨h1, h2, h3⟩ := hstruct
    refine ⟨⟨by simpa using h1, h2, h3⟩, ?_⟩
    simp only [lrender]
    rw [spliceRender_snoc_inter _ _ _ (by simpa using h1.symm)]
    simp
  case endsInterRange.range =>
    split at h
    · cases h
    · rename_i pr hpr
      cases h
      obtain ⟨h1, h2, h3⟩ := hstruct
      have hrv := canonicalTok_render (hcanon rfl) hpr
      refine ⟨⟨by simpa using h1, h2, h3⟩, ?_⟩
      simp only [lrender, List.map_append, List.map_cons, List.map_nil]
      rw [spliceRender_snoc_range _ _ _ (by simp; omega)]
      simp [hrv]

theorem looseFinalise_render {st : LState} {acc : LAcc}
    {ast : ParsedLooseSequence} (h : looseFinalise st acc = .ok ast)
    (hstruct : LInvStruct st acc) : ast.render = lrender st acc := by
  cases st
  case init => simp [looseFinalise] at h
  case startsInterRange => simp [looseFinalise] at h
  case startsPostfix => simp [looseFinalise] at h
  case rangeLater => simp [looseFinalise] at h
  case inPrefix => simp [looseFinalise] at h
  case inInterRange => simp [looseFinalise] at h
  case rangeEndsName => simp [looseFinalise] at h
  case endsPrefix => simp [looseFinalise] at h
  case endsInterRange => simp [looseFinalise] at h
  case rangeStartsName =>
    obtain ⟨h1, h2, h3, h4, h5, h6⟩ := hstruct
    simp [looseFinalise] at h
    subst h
    simp [ParsedLooseSequence.render, lrender, concatAll, h1, h2, h3, h4]
  case startsStem =>
    obtain ⟨h1, h2, h3⟩ := hstruct
    simp [looseFinalise, h3, h1] at h
    subst h
    simp [ParsedLooseSequence.render, lrender, concatAll, h1, h2]
  case startsSuffixes =>
    obtain ⟨h1, h2⟩ := hstruct
    simp [looseFinalise, h2, h1] at h
    subst h
    simp [ParsedLooseSequence.render, lrender, h1]
  case rangeInName =>
    obtain ⟨h1, h2, h3, h4⟩ := hstruct
    simp [looseFinalise, h4] at h
    subst h
    simp [ParsedLooseSequence.render, lrender, concatAll, h2, h3]
  case inPostfix =>
    obtain ⟨h1, h2⟩ := hstruct
    simp [looseFinalise, h2] at h
    subst h
    simp [ParsedLooseSequence.render, lrender, concatAll, h1]
  case inSuffixes =>
    simp only [LInvStruct] at hstruct
    simp [looseFinalise, hstruct] at h
    subst h
    simp [ParsedLooseSequence.render, lrender]
  case endsRange =>
    obtain ⟨h1, h2, h3⟩ := hstruct
    simp [looseFinalise, h3, h2] at h
    subst h
    simp [ParsedLooseSequence.render, lrender, h2]

theorem runLooseGo_inv : ∀ (ts : List LToken) (st : LState) (acc : LAcc)
    (st2 : LState) (acc2 : LAcc),
    runLooseGo st acc ts = .ok (st2, acc2) → LInvStruct st acc →
    (∀ t ∈ ts, t.type = LTokenType.range → canonicalTok t.value = true) →
    LInvStruct st2 acc2 ∧
      lrender st2 acc2 = lrender st acc ++ lTokensText ts := by
  intro ts
  induction ts with
  | nil =>
    intro st acc st2 acc2 h hstruct _
    simp only [runLooseGo] at h
    cases h
    exact ⟨hstruct, by simp [lTokensText, concatAll]⟩
  | cons t rest ih =>
    intro st acc st2 acc2 h hstruct hcanon
    simp only [runLooseGo, bind, Except.bind] at h
    split at h
    · cases h
    · rename_i p hp
      rcases p with ⟨stm, accm⟩
      obtain ⟨hstruct2, hrender⟩ := lstep_inv hp hstruct
        (fun hty => hcanon t (by simp) hty)
      obtain ⟨hstruct3, hrender3⟩ := ih stm accm st2 acc2 h hstruct2
        (fun u hu => hcanon u (by simp [hu]))
      refine ⟨hstruct3, ?_⟩
      rw [hrender3, hrender]
      simp [lTokensText, concatAll, List.append_assoc]

theorem runLoose_render {ts : List LToken} {ast : ParsedLooseSequence}
    (h : runLoose ts = .ok ast)
    (hc : ∀ t ∈ ts, t.type = LTokenType.range → canonicalTok t.value = true) :
    ast.render = lTokensText ts := by
  unfold runLoose at h
  simp only [bind, Except.bind] at h
  split at h
  · cases h
  · rename_i p hp
    rcases p with ⟨st2, acc2⟩
    obtain ⟨hstruct, hr⟩ := runLooseGo_inv ts .init {} st2 acc2 hp
      (by simp [LInvStruct]) hc
    rw [looseFinalise_render h hstruct, hr]
    simp [lrender]

/-! ### Helper lemmas for the claim properties -/

theorem replicate_hash_beq (k : Nat) (s : List Char)
    (hs : s.head? ≠ some '#') (hne : s ≠ []) :
    (List.replicate k '#' == s) = false := by
  rw [beq_eq_false_iff_ne]
  intro h
  cases k
  · exact hne h.symm
  · apply hs
    rw [← h]
    rfl

theorem replicate_hash_contains (k : Nat) :
    (List.replicate k '#').contains '.' = false := by
  induction k with
  | zero => rfl
  | succ n ih => simp [List.replicate_succ, List.contains_cons, ih]

theorem formatBase_error {pr : PaddedRange} {n : FileNum} {e : Err}
    (h : pr.formatBase n = .error e) : e = .notImplemented := by
  unfold PaddedRange.formatBase at h
  split at h
  · cases h
    rfl
  · cases h

theorem mapM_loop_error {α β : Type} (f : α → Except Err β) :
    ∀ (l : List α) (acc : List β) (e : Err),
      List.mapM.loop f l acc = .error e → ∃ x ∈ l, f x = .error e := by
  intro l
  induction l with
  | nil =>
    intro acc e h
    simp [List.mapM.loop, pure, Except.pure] at h
  | cons a as ih =>
    intro acc e h
    simp only [List.mapM.loop, bind, Except.bind] at h
    split at h
    · rename_i e2 he2
      cases h
      exact ⟨a, by simp, he2⟩
    · rename_i b hb
      obtain ⟨x, hx, hfx⟩ := ih _ _ h
      exact ⟨x, by simp [hx], hfx⟩

theorem spliceNumbers_typeError (ns : List (Option FileNum))
    (rs : List PaddedRange) (is : List (List Char)) :
    spliceNumbersOntoRanges ns rs is = .error .typeError ↔
      ns.length ≠ rs.length := by
  unfold spliceNumbersOntoRanges
  constructor
  · intro h
    by_contra heq
    rw [if_neg (by simp [heq])] at h
    split at h
    · exact absurd h (by decide)
    · simp only [bind, Except.bind] at h
      split at h
      · rename_i e he
        cases h
        rw [List.mapM] at he
        obtain ⟨x, hx, hfx⟩ := mapM_loop_error _ _ _ _ he
        rcases x with ⟨n, r⟩
        rcases n with _ | num
        · cases hfx
        · exact absurd (formatBase_error hfx) (by decide)
      · rename_i ls hls
        unfold spliceStringsOntoRanges at h
        split at h
        · exact absurd h (by decide)
        · cases h
  · intro hne
    rw [if_pos (by simpa using hne)]

/-! ### The claims -/

/-- Claim C1 (amended): rendering the parsed AST back to a string returns
the input exactly, for every string either dialect accepts — each
conjunct assumes only its own parser's success — provided every range
token of the input is canonical (re-rendering its parsed `PaddedRange`
reproduces the token verbatim).  Without that proviso the round trip
fails, because `_consolidate_ranges` normalises the numbers: see the
counterexample. -/
theorem claim1_round_trip (s : List Char) :
    (∀ ast, parsePathSequence s = .ok ast →
      (∀ ts, tokeniseSeq s = .ok ts → ∀ t ∈ ts,
        t.type = STokenType.range → canonicalTok t.value = true) →
      ParsedSequence.render ast = s) ∧
    (∀ astl, parseLoosePathSequence s = .ok astl →
      (∀ ts, tokeniseLoose s = .ok ts → ∀ t ∈ ts,
        t.type = LTokenType.range → canonicalTok t.value = true) →
      ParsedLooseSequence.render astl = s) := by
  constructor
  · intro ast hs hc
    unfold parsePathSequence at hs
    simp only [bind, Except.bind] at hs
    split at hs
    · cases hs
    · rename_i ts hts
      rw [runStrict_render hs (hc ts hts), tokeniseSeq_concat hts]
  · intro astl hl hcl
    unfold parseLoosePathSequence at hl
    simp only [bind, Except.bind] at hl
    split at hl
    · cases hl
    · rename_i ts hts
      rw [runLoose_render hl (hcl ts hts), tokeniseLoose_concat hts]

/-- Claim C1, witness: the strict round trip at `"file.1-9x2#.exr"`, the
loose round trip at both that string and at `"file.exr.1-9x2#"` — a
string only the loose dialect accepts (the strict parser raises
`ParseError` on it); all range tokens involved are canonical. -/
theorem claim1_round_trip_witness :
    parsePathSequence (chars "file.1-9x2#.exr") = .ok rtAst ∧
    parseLoosePathSequence (chars "file.1-9x2#.exr") = .ok rtAstL ∧
    ParsedSequence.render rtAst = chars "file.1-9x2#.exr" ∧
    ParsedLooseSequence.render rtAstL = chars "file.1-9x2#.exr" ∧
    parsePathSequence (chars "file.exr.1-9x2#") = .error .parseError ∧
    parseLoosePathSequence (chars "file.exr.1-9x2#") = .ok rtAstEnd ∧
    ParsedLooseSequence.render rtAstEnd = chars "file.exr.1-9x2#" := by
  have hs : parsePathSequence (chars "file.1-9x2#.exr") = .ok rtAst := by
    decide
  have hl : parseLoosePathSequence (chars "file.1-9x2#.exr") = .ok rtAstL := by
    decide
  have he : parseLoosePathSequence (chars "file.exr.1-9x2#") = .ok rtAstEnd := by
    decide
  have hts : tokeniseSeq (chars "file.1-9x2#.exr") = .ok rtTokens := by decide
  have htl : tokeniseLoose (chars "file.1-9x2#.exr") = .ok rtTokensL := by
    decide
  have hte : tokeniseLoose (chars "file.exr.1-9x2#") = .ok rtTokensEnd := by
    decide
  have hc : ∀ ts, tokeniseSeq (chars "file.1-9x2#.exr") = .ok ts → ∀ t ∈ ts,
      t.type = STokenType.range → canonicalTok t.value = true := by
    intro ts h
    rw [hts] at h
    cases h
    decide
  have hcl : ∀ ts, tokeniseLoose (chars "file.1-9x2#.exr") = .ok ts →
      ∀ t ∈ ts, t.type = LTokenType.range → canonicalTok t.value = true := by
    intro ts h
    rw [htl] at h
    cases h
    decide
  have hce : ∀ ts, tokeniseLoose (chars "file.exr.1-9x2#") = .ok ts →
      ∀ t ∈ ts, t.type = LTokenType.range → canonicalTok t.value = true := by
    intro ts h
    rw [hte] at h
    cases h
    decide
  refine ⟨hs, hl, ?_, ?_, by decide, he, ?_⟩
  · exact (claim1_round_trip (chars "file.1-9x2#.exr")).1 rtAst hs hc
  · exact (claim1_round_trip (chars "file.1-9x2#.exr")).2 rtAstL hl hcl
  · exact (claim1_round_trip (chars "file.exr.1-9x2#")).2 rtAstEnd he hce

/-- Claim C1, counterexample: `"file.1-10x2#.exr"` is accepted by the
strict grammar but renders back as `"file.1-9x2#.exr"` — the stored end is
rounded down to the last reachable element, so the round trip is not exact
for every accepted string. -/
theorem claim1_counterexample :
    parsePathSequence (chars "file.1-10x2#.exr") = .ok rtAst ∧
    ParsedSequence.render rtAst = chars "file.1-9x2#.exr" ∧
    ParsedSequence.render rtAst ≠ chars "file.1-10x2#.exr" :=
  ⟨by decide, by decide, by decide⟩

/-- Claim C2: `ArithmeticSequence(1,10,2)` and `ArithmeticSequence(2,10,2)`
have no common element, yet `isdisjoint` returns `False`: the integer
branch of `_quick_isdisjoint` returns `False` on every path (both when the
divisibility check on the start difference fails and when it succeeds), so
the pair the specification calls disjoint is reported non-disjoint. -/
theorem claim2_isdisjoint_bug :
    ∃ a b,
      ArithmeticSequence.make (.int 1) (some (.int 10)) (some (.int 2)) =
        .ok a ∧
      ArithmeticSequence.make (.int 2) (some (.int 10)) (some (.int 2)) =
        .ok b ∧
      (∀ x ∈ a.toList, x ∉ b.toList) ∧
      a.isdisjoint b = .ok false :=
  ⟨⟨.intRange 1 11 2, .int 9⟩, ⟨.intRange 2 12 2, .int 10⟩,
    by decide, by decide, by decide, by decide⟩

/-- Claim C3: for `ArithmeticSequence(1, 6, 3)` the stored inclusive end is
`4` but iteration yields `[1, 4, 7]` — the internal exclusive stop is
`end + remainder = 8`, which overshoots the rounded-down end by a whole
step whenever `2 * remainder > step`, so `end` is not the actual last
element of the progression. -/
theorem claim3_end_not_last :
    ∃ r,
      ArithmeticSequence.make (.int 1) (some (.int 6)) (some (.int 3)) =
        .ok r ∧
      r.endv = .int 4 ∧
      r.toList = [.int 1, .int 4, .int 7] ∧
      r.toList.getLast? ≠ some r.endv :=
  ⟨⟨.intRange 1 8 3, .int 4⟩, by decide, by decide, by decide, by decide⟩

/-- Claim C4: building a `FileNumSequence` from raw numbers agrees with
parsing the consolidated range string, for the three stated pairs, under
the collection equality `FileNumSequence.beq` (range-wise `__eq__`). -/
theorem claim4_from_file_nums_eq_from_str :
    ((FileNumSequence.fromFileNums [.int 1, .int 2, .int 3]).bind fun a =>
      (FileNumSequence.fromStr (chars "1-3")).map fun b => a.beq b) =
      .ok true ∧
    ((FileNumSequence.fromFileNums [.int 2, .int 4, .int 6]).bind fun a =>
      (FileNumSequence.fromStr (chars "2-6x2")).map fun b => a.beq b) =
      .ok true ∧
    ((FileNumSequence.fromFileNums
        [.int (-3), .int (-2), .int (-1)]).bind fun a =>
      (FileNumSequence.fromStr (chars "-3--1")).map fun b => a.beq b) =
      .ok true :=
  ⟨by decide, by decide, by decide⟩

/-- Claim C5 (amended): `"file.#.exr"` parses strictly to the AST with stem
`"file"`, an empty range collection and pad `"#"`; `"file.exr.1-10x2#"`
parses loosely to a `RangesEndName`; `"#"`, `"file.#.#"` and `"file_#"`
raise `ParseError`; `"file.exr"` raises `NotASequenceError`; but
`"1-10#.file.exr"` parses loosely to a `RangesInName` (not the
`RangesStartName` the claim states): the suffix tokens after the leading
range move the machine through `in_suffixes`, and `on_finalise` demotes a
sequence finalised from `range_starts_name` to `RangesInName`. -/
theorem claim5_grammar_coverage :
    parsePathSequence (chars "file.#.exr") =
      .ok ⟨chars "file", chars ".", [⟨⟨[]⟩, ['#']⟩], [], [chars ".exr"]⟩ ∧
    (parseLoosePathSequence (chars "1-10#.file.exr")).map
        (fun a => (a.isInName, a.rangesOf)) =
      .ok (true, [⟨⟨[⟨.intRange 1 11 1, .int 10⟩]⟩, ['#']⟩]) ∧
    (parseLoosePathSequence (chars "file.exr.1-10x2#")).map
        ParsedLooseSequence.isEndName = .ok true ∧
    parsePathSequence (chars "#") = .error .parseError ∧
    parsePathSequence (chars "file.#.#") = .error .parseError ∧
    parsePathSequence (chars "file_#") = .error .parseError ∧
    parsePathSequence (chars "file.exr") = .error .notASequence :=
  ⟨by decide, by decide, by decide, by decide, by decide, by decide,
    by decide⟩

/-- Claim C5, counterexample: the loose parse of `"1-10#.file.exr"` is not
a `RangesStartName` value. -/
theorem claim5_counterexample :
    (parseLoosePathSequence (chars "1-10#.file.exr")).map
      ParsedLooseSequence.isStartName = .ok false := by decide

/-- Claim C6 (amended): `<UVTILE>` formatting of an integer uses
`u = (number - 1) % 10` and `v = (number - 1000 - u - 1) / 10` (not the
claimed `v = (number - 1 - u) / 10`), and with these values the inverse
relation `1000 + v * 10 + (u + 1) = number` holds for every integer. -/
theorem claim6_uvtile_format (n : Int) :
    PaddedRange.format uvtilePR (.int n) =
      'u' :: intToChars ((n - 1) % 10 + 1) ++ '_' :: 'v' ::
        intToChars ((n - 1000 - (n - 1) % 10 - 1) / 10 + 1) ∧
    1000 + ((n - 1000 - (n - 1) % 10 - 1) / 10) * 10 + ((n - 1) % 10 + 1) =
      n := by
  constructor
  · unfold PaddedRange.format
    rw [if_pos (by decide)]
  · have h10 : (10 : Int) ≠ 0 := by norm_num
    have hv : (n - 1000 - (n - 1) % 10 - 1) / 10 = (n - 1) / 10 - 100 := by
      have hq := Int.ediv_add_emod (n - 1) 10
      have he : n - 1000 - (n - 1) % 10 - 1 = 10 * ((n - 1) / 10 - 100) := by
        omega
      rw [he, Int.mul_ediv_cancel_left _ h10]
    have hq := Int.ediv_add_emod (n - 1) 10
    omega

/-- Claim C6, counterexample: at `number = 1001` the code renders
`"u1_v1"` (`v = 0`), while the claimed formula gives `v = 100`, i.e.
`"u1_v101"`. -/
theorem claim6_counterexample :
    PaddedRange.format uvtilePR (.int 1001) = chars "u1_v1" ∧
    specUVTILE 1001 = chars "u1_v101" ∧
    specUVTILE 1001 ≠ PaddedRange.format uvtilePR (.int 1001) :=
  ⟨by decide, by decide, by decide⟩

/-- Claim C7 (amended): for a pad format that is a run of `k` `#`
characters, or `<UDIM>` (treated as a run of four), `as_regex()` returns
the alternation of the positive pattern (`([1-9][0-9]*)?` plus `k` digit
classes) and the negative pattern — which is `-([1-9][0-9]*)?` plus only
`k - 1` digit classes, not a bare `-` plus the same run of `k` — with the
optional decimal suffix appended exactly when the range collection
`has_subsamples` (its first element is decimal-typed), not when it
contains a non-integral value; for `<UVTILE>` it returns `u\d+_v\d+`. -/
theorem claim7_as_regex (pr : PaddedRange) (k : Nat)
    (hk : pr.padFormat = List.replicate k '#' ∨
      (pr.padFormat = chars "<UDIM>" ∧ k = 4)) :
    PaddedRange.asRegex pr = codeHashRegex k (PaddedRange.hasSubsamples pr) ∧
    PaddedRange.asRegex uvtilePR = chars "u\\d+_v\\d+" := by
  refine ⟨?_, by decide⟩
  rcases hk with hk | ⟨hk, hk4⟩
  · have h1 : (List.replicate k '#' == chars "<UVTILE>") = false :=
      replicate_hash_beq k _ (by decide) (by decide)
    have h2 : (List.replicate k '#' == chars "<UDIM>") = false :=
      replicate_hash_beq k _ (by decide) (by decide)
    unfold PaddedRange.asRegex
    rw [hk, h1, h2]
    simp only [Bool.false_eq_true, if_false, replicate_hash_contains,
      List.length_replicate, codeHashRegex]
  · subst hk4
    unfold PaddedRange.asRegex
    rw [hk]
    have h1 : (chars "<UDIM>" == chars "<UVTILE>") = false := by decide
    have h2 : (chars "<UDIM>" == chars "<UDIM>") = true := by decide
    rw [h1, h2]
    cases hs : pr.hasSubsamples <;> simp only [hs] <;> decide

/-- Claim C7, witness: the regex of a two-character `#` run over the empty
collection, and the `<UVTILE>` regex. -/
theorem claim7_as_regex_witness :
    PaddedRange.asRegex ⟨emptyFNS, ['#', '#']⟩ =
      codeHashRegex 2 (PaddedRange.hasSubsamples ⟨emptyFNS, ['#', '#']⟩) ∧
    PaddedRange.asRegex uvtilePR = chars "u\\d+_v\\d+" :=
  claim7_as_regex ⟨emptyFNS, ['#', '#']⟩ 2 (Or.inl (by decide))

/-- Claim C7, counterexample: the negative alternative the claim states
(bare `-` plus the same `k` digit classes) differs from the one the code
produces, and the decimal-suffix condition the claim states differs from
`has_subsamples`: parsing `"1.0-3.0"` yields only integral values, yet
`has_subsamples` is true (the first element is decimal-typed), so the
suffix is appended. -/
theorem claim7_counterexample :
    specHashRegex 2 false ≠ codeHashRegex 2 false ∧
    (FileNumSequence.fromStr (chars "1.0-3.0")).map
        (fun f => (f.toList.all FileNum.isIntegral, f.hasSubsamples)) =
      .ok (true, true) :=
  ⟨by decide, by decide⟩

/-- Claim C8: in both dialects, parsing raises `NotASequenceError` exactly
when the input contains no range token, and a grammar `ParseError` only
ever occurs on an input that does contain a range token. -/
theorem claim8_not_a_sequence (s : List Char) :
    (parsePathSequence s = .error .notASequence ↔
      hasRangeToken s = false) ∧
    (parseLoosePathSequence s = .error .notASequence ↔
      hasRangeToken s = false) ∧
    (parsePathSequence s = .error .parseError → hasRangeToken s = true) ∧
    (parseLoosePathSequence s = .error .parseError →
      hasRangeToken s = true) :=
  ⟨(strictParse_nas_iff s).1, (looseParse_nas_iff s).1,
    (strictParse_nas_iff s).2, (looseParse_nas_iff s).2⟩

/-- Claim C8, witness: `"file.exr"` has no range token, so both parsers
raise `NotASequenceError` on it. -/
theorem claim8_not_a_sequence_witness :
    parsePathSequence (chars "file.exr") = .error .notASequence ∧
    parseLoosePathSequence (chars "file.exr") = .error .notASequence :=
  ⟨(claim8_not_a_sequence (chars "file.exr")).1.mpr (by decide),
    (claim8_not_a_sequence (chars "file.exr")).2.1.mpr (by decide)⟩

/-- Claim C9: `ParsedSequence.format` fails with the count-mismatch error
(Python `TypeError`) exactly when the number of arguments differs from the
number of ranges; the check comes before any formatting, and no other
failure of `format` produces that error. -/
theorem claim9_arity (ast : ParsedSequence) (ns : List (Option FileNum)) :
    ParsedSequence.format ast ns = .error .typeError ↔
      ns.length ≠ ast.ranges.length := by
  rw [← spliceNumbers_typeError ns ast.ranges ast.interRanges]
  unfold ParsedSequence.format
  simp only [bind, Except.bind]
  constructor
  · intro h
    split at h
    · rename_i e he
      cases h
      exact he
    · cases h
  · intro h
    rw [h]

/-- Claim C9, witness: formatting a two-range AST with one number gives
the count-mismatch error. -/
theorem claim9_arity_witness :
    ParsedSequence.format twoRangeAst [some (.int 1)] = .error .typeError :=
  (claim9_arity twoRangeAst [some (.int 1)]).mpr (by decide)

/-- Claim C10: `__getitem__` checks `index > len(self)` instead of
`index >= len(self)` and never checks negative indices, so for
`ArithmeticSequence(1, 3)` (three elements), `r[3]` returns `4` and
`r[-1]` returns `0` instead of raising `IndexError`. -/
theorem claim10_getitem_bounds :
    ∃ r,
      ArithmeticSequence.make (.int 1) (some (.int 3)) none = .ok r ∧
      r.length = 3 ∧
      r.getAt 3 = .ok (.int 4) ∧
      r.getAt (-1) = .ok (.int 0) :=
  ⟨⟨.intRange 1 4 1, .int 3⟩, by decide, by decide, by decide, by decide⟩
